import Mathlib

/-!
# QuerySense search engine: a shallow embedding

This file embeds the in-memory full-text `SearchEngine` (document store +
inverted index + tokenizer + scorer + snippet extractor) in Lean and proves
properties of it.  Text is represented as `List Char`; JavaScript `Map`s are
represented as association lists in insertion order (`Map.set` replaces the
entry in place when the key is present, otherwise appends; `Map.delete`
removes the entry), and JavaScript `Set`s as duplicate-free lists in insertion
order.  All rational-valued arithmetic of the source (IEEE doubles there) is
modelled over `ℚ`.
-/

namespace QuerySense

/-! ## Characters

The tokenizer's character class is `[^a-zA-Z0-9\s]`; `\s` is modelled by the
ASCII whitespace characters.  (The engine only distinguishes whitespace from
other non-alphanumeric characters in that both act as token separators, so the
choice of `\s`-set does not affect the token sequence.)  ASCII lowercasing of
`String.prototype.toLowerCase` is `Char.toLower`.  `\w` of the highlighting
regex is `[A-Za-z0-9_]`.
-/

/-- ASCII letter or digit: the `a-zA-Z0-9` ranges of the tokenizer regex. -/
def isAlnum (c : Char) : Bool :=
  (97 ≤ c.toNat && c.toNat ≤ 122) || (65 ≤ c.toNat && c.toNat ≤ 90) ||
    (48 ≤ c.toNat && c.toNat ≤ 57)

/-- ASCII whitespace, modelling the `\s` class: space, tab, LF, VT, FF, CR. -/
def isWs (c : Char) : Bool :=
  c.toNat = 32 || c.toNat = 9 || c.toNat = 10 || c.toNat = 11 ||
    c.toNat = 12 || c.toNat = 13

/-- Word character of the regex `\b` boundary: `[A-Za-z0-9_]`. -/
def isWordChar (c : Char) : Bool :=
  isAlnum c || c.toNat = 95

/-! ## Tokenization -/

mutual

/-- Split a character list at runs of separator characters, as
`String.prototype.split` with a `/X+/` regex does: fields are the (possibly
empty) stretches between maximal runs of separators, so leading or trailing
separator runs yield an empty first or last field and `""` splits to `[""]`.
`splitRuns` scans in a field; `skipRun` scans inside a separator run (the
field before it already emitted). -/
def splitRuns (p : Char → Bool) : List Char → List (List Char)
  | [] => [[]]
  | c :: rest =>
    if p c then [] :: skipRun p rest
    else (splitRuns p rest).modifyHead (fun f => c :: f)

/-- Inside a separator run of `splitRuns`: drop further separators, then
open the next field (a trailing run yields a final empty field). -/
def skipRun (p : Char → Bool) : List Char → List (List Char)
  | [] => [[]]
  | c :: rest =>
    if p c then skipRun p rest
    else (splitRuns p rest).modifyHead (fun f => c :: f)

end

/-- `String.prototype.trim`: drop whitespace from both ends. -/
def trim (s : List Char) : List Char :=
  ((s.dropWhile isWs).reverse.dropWhile isWs).reverse

/-- The `.replace(/[^a-zA-Z0-9\s]/g, ' ')` step: every character that is not
an ASCII letter, digit or whitespace becomes a single space. -/
def replaceSpecial (s : List Char) : List Char :=
  s.map (fun c => if isAlnum c || isWs c then c else ' ')

/-- `SearchEngine.tokenize`: replace non-alphanumeric non-whitespace by a
space, split on whitespace runs, keep words of length `> 2`, trim each and
keep the nonempty ones. -/
def tokenize (text : List Char) : List (List Char) :=
  (((splitRuns isWs (replaceSpecial text)).filter
      (fun w => 2 < w.length)).map trim).filter (fun w => 0 < w.length)

/-- Lowercase a text as `String.prototype.toLowerCase` does on ASCII. -/
def lowerStr (s : List Char) : List Char :=
  s.map Char.toLower

/-! ## Association lists standing in for the JavaScript `Map`s -/

/-- `Map.prototype.get` / `has`: the value at the first entry with this key. -/
def alGet {κ α : Type} [DecidableEq κ] (k : κ) : List (κ × α) → Option α
  | [] => none
  | (k1, v) :: rest => if k1 = k then some v else alGet k rest

/-- `Map.prototype.set`: replace the entry in place when the key is present,
otherwise append a new entry at the end (insertion order). -/
def alSet {κ α : Type} [DecidableEq κ] (k : κ) (v : α) :
    List (κ × α) → List (κ × α)
  | [] => [(k, v)]
  | (k1, v1) :: rest =>
    if k1 = k then (k, v) :: rest else (k1, v1) :: alSet k v rest

/-- `Map.prototype.delete` (ignoring its Boolean result). -/
def alErase {κ α : Type} [DecidableEq κ] (k : κ) (l : List (κ × α)) :
    List (κ × α) :=
  l.filter (fun p => p.1 ≠ k)

/-- The keys of a map, in insertion order. -/
def alKeys {κ α : Type} (l : List (κ × α)) : List κ :=
  l.map (fun p => p.1)

/-- `Set.prototype.add`: append the element unless already present. -/
def setAdd {α : Type} [DecidableEq α] (x : α) (l : List α) : List α :=
  if x ∈ l then l else l ++ [x]

/-! ## Engine state -/

/-- A stored document record. -/
structure Document where
  id : String
  filename : String
  content : List Char
  uploadedAt : String
deriving DecidableEq, Repr

/-- The engine state: `this.documents` (id → document record) and
`this.invertedIndex` (token → (document id → 0-based positions)). -/
structure EngineState where
  documents : List (String × Document)
  invertedIndex : List (List Char × List (String × List Nat))
deriving DecidableEq, Repr

/-- The `SearchEngine` constructor: two empty maps. -/
def emptyEngine : EngineState := ⟨[], []⟩

/-- The tokens of a document's content as indexed: the content is lowercased
and then tokenized. -/
def docTokens (doc : Document) : List (List Char) :=
  tokenize (lowerStr doc.content)

/-- One step of `indexDocument`'s `words.forEach((word, position) => ...)`:
ensure the token has a posting map, ensure the document has a posting list
under it, and push the position. -/
def addPosting (idx : List (List Char × List (String × List Nat)))
    (word : List Char) (docId : String) (pos : Nat) :
    List (List Char × List (String × List Nat)) :=
  match alGet word idx with
  | none => alSet word [(docId, [pos])] idx
  | some docMap =>
    match alGet docId docMap with
    | none => alSet word (docMap ++ [(docId, [pos])]) idx
    | some ps => alSet word (alSet docId (ps ++ [pos]) docMap) idx

/-- `SearchEngine.indexDocument`: tokenize the lowercased content and add a
posting for every token occurrence, positions in order of occurrence. -/
def indexDocument (st : EngineState) (doc : Document) : EngineState :=
  { st with
    invertedIndex :=
      (docTokens doc).enum.foldl
        (fun idx pw => addPosting idx pw.2 doc.id pw.1) st.invertedIndex }

/-- `SearchEngine.addDocument`: store the record, then index it. -/
def addDocument (st : EngineState) (doc : Document) : EngineState :=
  indexDocument { st with documents := alSet doc.id doc st.documents } doc

/-- The inverted-index sweep of `removeDocument`: delete the document's entry
from every token's posting map and drop every token whose posting map becomes
empty. -/
def removeAll (docId : String)
    (idx : List (List Char × List (String × List Nat))) :
    List (List Char × List (String × List Nat)) :=
  (idx.map (fun p => (p.1, alErase docId p.2))).filter (fun p => p.2 ≠ [])

/-- `SearchEngine.removeDocument`: `false` when the id is unknown; otherwise
delete the record, delete this document's entry from every token's posting
map, drop every token whose posting map becomes empty, and return `true`. -/
def removeDocument (st : EngineState) (docId : String) :
    Bool × EngineState :=
  match alGet docId st.documents with
  | none => (false, st)
  | some _ =>
    (true,
      { documents := alErase docId st.documents,
        invertedIndex := removeAll docId st.invertedIndex })

/-- The stats triple of `SearchEngine.getIndexStats`. -/
structure IndexStats where
  documentCount : Nat
  uniqueWords : Nat
  totalWords : Nat
deriving DecidableEq, Repr

/-- `SearchEngine.getIndexStats`: document count, index key count, and the
total number of stored positions over all tokens and documents. -/
def getIndexStats (st : EngineState) : IndexStats :=
  ⟨st.documents.length,
   st.invertedIndex.length,
   (st.invertedIndex.map (fun p => (p.2.map (fun q => q.2.length)).sum)).sum⟩

/-! ## Scoring -/

/-- The per-document accumulator of `search`: raw score, the set of query
words that hit the document, and the word → position-count map. -/
structure ScoreData where
  score : Nat
  matchedTerms : List (List Char)
  termFrequencies : List (List Char × Nat)
deriving DecidableEq, Repr

/-- The fresh accumulator `{ score: 0, matchedTerms: new Set(),
termFrequencies: new Map() }`. -/
def freshScore : ScoreData := ⟨0, [], []⟩

/-- The body of `docMap.forEach((positions, docId) => ...)`: record the word
as matched, record its frequency, and add the position count to the score. -/
def scoreWordDoc (sd : ScoreData) (word : List Char) (plen : Nat) :
    ScoreData :=
  { score := sd.score + plen,
    matchedTerms := setAdd word sd.matchedTerms,
    termFrequencies := alSet word plen sd.termFrequencies }

/-- The body of `queryWords.forEach(word => ...)`: when the word is in the
index, update (or create) the accumulator of every document in its posting
map. -/
def scoreWord (sc : List (String × ScoreData))
    (idx : List (List Char × List (String × List Nat)))
    (word : List Char) : List (String × ScoreData) :=
  match alGet word idx with
  | none => sc
  | some docMap =>
    docMap.foldl
      (fun sc1 p =>
        alSet p.1 (scoreWordDoc ((alGet p.1 sc1).getD freshScore) word
          p.2.length) sc1)
      sc

/-- The `documentScores` map built by `search` for a tokenized query. -/
def computeScores (st : EngineState) (queryWords : List (List Char)) :
    List (String × ScoreData) :=
  queryWords.foldl (fun sc w => scoreWord sc st.invertedIndex w) []

/-! ## Snippet extraction and highlighting -/

/-- Sentence-ending punctuation of the snippet splitter: `[.!?]+`. -/
def isSentEnd (c : Char) : Bool :=
  c.toNat = 46 || c.toNat = 33 || c.toNat = 63

/-- Whether the head of a character list is a word character (`false` for the
empty list, i.e. past either end of the string). -/
def wAt : List Char → Bool
  | [] => false
  | c :: _ => isWordChar c

/-- Case-insensitive prefix test: does `s` start with `w` up to ASCII case? -/
def startsWithCI (w s : List Char) : Bool :=
  (s.take w.length).map Char.toLower == w.map Char.toLower

/-- Characters the source's `escapeRegex` prefixes with a backslash:
`.*+?^$\x7b\x7d()|[]\`. -/
def isRegexSpecial (c : Char) : Bool :=
  c.toNat = 46 || c.toNat = 42 || c.toNat = 43 || c.toNat = 63 ||
    c.toNat = 94 || c.toNat = 36 || c.toNat = 123 || c.toNat = 125 ||
    c.toNat = 40 || c.toNat = 41 || c.toNat = 124 || c.toNat = 91 ||
    c.toNat = 93 || c.toNat = 92

/-- `SearchEngine.escapeRegex`: prefix every regex metacharacter with a
backslash (the `'\\$&'` replacement). -/
def escapeRegex (s : List Char) : List Char :=
  s.foldr (fun c acc => if isRegexSpecial c then '\\' :: c :: acc else c :: acc) []

/-- The global, case-insensitive replacement of `\b<word>\b` by `**$&**`:
scan left to right carrying whether the previous character was a word
character; at a position where the word matches case-insensitively and both
`\b` boundaries hold (the word-character status changes across each edge),
emit the matched text wrapped in `**`, and resume after it.  Because the
pattern is the escaped word, it matches exactly the literal word. -/
def hlGoF (w : List Char) : Nat → Bool → List Char → List Char
  | 0, _, _ => []
  | _ + 1, _, [] => []
  | fuel + 1, prevW, c :: rest =>
    if w ≠ [] ∧ startsWithCI w (c :: rest) = true ∧
        prevW ≠ isWordChar c ∧
        wAt (((c :: rest).take w.length).reverse) ≠
          wAt ((c :: rest).drop w.length) then
      '*' :: '*' :: ((c :: rest).take w.length ++ '*' :: '*' ::
        hlGoF w fuel (wAt (((c :: rest).take w.length).reverse))
          ((c :: rest).drop w.length))
    else
      c :: hlGoF w fuel (isWordChar c) rest

/-- Entry point of the scan: the fuel `s.length + 1` bounds the number of
steps (each step consumes at least one character of a nonempty word, so the
fuel is never exhausted). -/
def hlGo (w : List Char) (prevW : Bool) (s : List Char) : List Char :=
  hlGoF w (s.length + 1) prevW s

/-- The highlighting pass of `extractSnippets`: for each query word in turn,
replace `\b<escaped word>\b` globally and case-insensitively by `**$&**` in
the current string. -/
def highlightAll (queryWords : List (List Char)) (s : List Char) : List Char :=
  queryWords.foldl (fun acc w => hlGo w false acc) s

/-- The per-sentence match counter of `extractSnippets`: how many entries of
`queryWords` (an element occurring twice is tested twice) appear in the
lowercased sentence as a substring (`String.prototype.includes`). -/
def matchCount (queryWords : List (List Char)) (sentence : List Char) : Nat :=
  (queryWords.filter (fun w => decide (w <:+: lowerStr sentence))).length

/-- The sentence scan of `extractSnippets`: in original order, skip sentences
with zero matches, push `(highlighted trimmed sentence, match count)` for the
others, and stop as soon as `maxSnippets` snippets have been collected. -/
def snippetLoop (queryWords : List (List Char)) (maxSnippets : Nat) :
    List (List Char) → List (List Char × Nat) → List (List Char × Nat)
  | [], acc => acc
  | sentence :: rest, acc =>
    let m := matchCount queryWords sentence
    let acc1 := if 0 < m then
        acc ++ [(highlightAll queryWords (trim sentence), m)]
      else acc
    if maxSnippets ≤ acc1.length then acc1
    else snippetLoop queryWords maxSnippets rest acc1

/-- Insert into a list sorted in descending key order, before the first
strictly smaller key (so equal keys keep their relative order, as the stable
`Array.prototype.sort` does with a `b.key - a.key` comparator). -/
def insertDesc {α β : Type} [LinearOrder β] (key : α → β) (x : α) :
    List α → List α
  | [] => [x]
  | y :: ys => if key y < key x then x :: y :: ys else y :: insertDesc key x ys

/-- Stable sort in descending key order: insert the elements left to right. -/
def sortByDesc {α β : Type} [LinearOrder β] (key : α → β) (l : List α) :
    List α :=
  l.foldl (fun acc x => insertDesc key x acc) []

/-- `SearchEngine.extractSnippets`: split the content on `[.!?]+` runs, keep
fragments longer than 10 characters after trimming, scan them collecting
highlighted snippets with their match counts (stopping early at
`maxSnippets`), then sort by match count descending and return the texts of
the first `maxSnippets`. -/
def extractSnippets (content : List Char) (queryWords : List (List Char))
    (maxSnippets : Nat) : List (List Char) :=
  let sentences :=
    (splitRuns isSentEnd content).filter (fun s => 10 < (trim s).length)
  let snips := snippetLoop queryWords maxSnippets sentences []
  ((sortByDesc (fun p => p.2) snips).take maxSnippets).map (fun p => p.1)

/-! ## Search -/

/-- One returned search result.  The document fields are copied out of the
store; `score` is the coverage-boosted final score and `relevance` the bounded
confidence surrogate, both rational. -/
structure SearchResult where
  docId : String
  filename : String
  uploadedAt : String
  score : ℚ
  relevance : ℚ
  matchedTerms : List (List Char)
  snippets : List (List Char)
deriving DecidableEq, Repr

/-- The record the source would read fields from when `documents.get(docId)`
is `undefined`; unreachable for states whose index only references stored
documents. -/
def missingDocument : Document := ⟨"", "", [], ""⟩

/-- The result-building arrow function of `search`: look the document up,
compute `termCoverage = matchedTerms.size / queryWords.length`,
`finalScore = score * (1 + termCoverage)`,
`relevance = min(0.95, termCoverage * 0.8 + 0.2)`, and extract up to three
snippets. -/
def buildResult (st : EngineState) (queryWords : List (List Char))
    (p : String × ScoreData) : SearchResult :=
  let document := (alGet p.1 st.documents).getD missingDocument
  let termCoverage : ℚ :=
    (p.2.matchedTerms.length : ℚ) / (queryWords.length : ℚ)
  { docId := document.id,
    filename := document.filename,
    uploadedAt := document.uploadedAt,
    score := (p.2.score : ℚ) * (1 + termCoverage),
    relevance := min (0.95 : ℚ) (termCoverage * 0.8 + 0.2),
    matchedTerms := p.2.matchedTerms,
    snippets := extractSnippets document.content queryWords 3 }

/-- `SearchEngine.search`: empty result on a blank query or a query with no
tokens; otherwise score the documents, build a result per scored document,
sort by final score descending and keep the first `limit`. -/
def search (st : EngineState) (query : List Char) (limit : Nat) :
    List SearchResult :=
  if (trim query).length = 0 then []
  else
    let queryWords := tokenize (lowerStr query)
    if queryWords.length = 0 then []
    else
      (sortByDesc SearchResult.score
        ((computeScores st queryWords).map (buildResult st queryWords))).take
        limit

/-- The `search` method as a state transformer: its body performs reads of
`this.documents` and `this.invertedIndex` but contains no assignment to
either, so the state it leaves behind is the state it was called in. -/
def searchOp (st : EngineState) (query : List Char) (limit : Nat) :
    List SearchResult × EngineState :=
  (search st query limit, st)

/-! ## Derived observations and predicates used by the statements -/

/-- The posting list of a (token, document) pair, when both levels exist. -/
def posGet (idx : List (List Char × List (String × List Nat)))
    (w : List Char) (d : String) : Option (List Nat) :=
  match alGet w idx with
  | none => none
  | some dm => alGet d dm

/-- The length of the posting list of a (token, document) pair, `0` when the
token is not indexed or the document is not in its posting map. -/
def postLen (idx : List (List Char × List (String × List Nat)))
    (w : List Char) (d : String) : Nat :=
  match posGet idx w d with
  | none => 0
  | some ps => ps.length

/-- The raw score `documentScores` holds for a document id, `0` when the
document has no entry. -/
def scoreOf (d : String) (sc : List (String × ScoreData)) : Nat :=
  match alGet d sc with
  | none => 0
  | some sd => sd.score

/-- Join a token list with single spaces, as `tokens.join(' ')` would. -/
def joinTokens : List (List Char) → List Char
  | [] => []
  | [t] => t
  | t :: ts => t ++ ' ' :: joinTokens ts

/-- A mutating call on the engine: `addDocument` or `removeDocument`. -/
inductive EngineOp where
  | add (doc : Document)
  | remove (docId : String)

/-- Execute one mutating call. -/
def applyOp (st : EngineState) : EngineOp → EngineState
  | .add doc => addDocument st doc
  | .remove docId => (removeDocument st docId).2

/-- Execute a sequence of mutating calls on a fresh engine. -/
def runOps (ops : List EngineOp) : EngineState :=
  ops.foldl applyOp emptyEngine

/-- A call sequence in which every `addDocument` is performed with an id that
is not currently stored (ids are never re-used while live). -/
def okRun (st : EngineState) : List EngineOp → Bool
  | [] => true
  | .add doc :: rest =>
    (alGet doc.id st.documents).isNone && okRun (applyOp st (.add doc)) rest
  | .remove docId :: rest => okRun (applyOp st (.remove docId)) rest

/-- The index/store coherence invariant: a token is an index key iff some
stored document's tokenized content contains it, and a document id sits in a
token's posting map iff that stored document's tokenized content contains the
token. -/
def engineInv (st : EngineState) : Prop :=
  (∀ w, w ∈ alKeys st.invertedIndex ↔
    ∃ d doc, alGet d st.documents = some doc ∧ w ∈ docTokens doc) ∧
  (∀ w d, (posGet st.invertedIndex w d).isSome = true ↔
    ∃ doc, alGet d st.documents = some doc ∧ w ∈ docTokens doc)

/-- Structural well-formedness of an inverted index as the JavaScript `Map`s
maintain it: no duplicate keys at either level, no empty posting map, no
empty posting list. -/
def indexWF (idx : List (List Char × List (String × List Nat))) : Prop :=
  (alKeys idx).Nodup ∧
    ∀ p ∈ idx, (alKeys p.2).Nodup ∧ p.2 ≠ [] ∧ ∀ q ∈ p.2, q.2 ≠ []

/-- Structural well-formedness of an engine state. -/
def stateWF (st : EngineState) : Prop :=
  (alKeys st.documents).Nodup ∧ indexWF st.invertedIndex

/-! ## Spec-side definitions for the highlighting refinement

These two definitions follow the specification's words — "wrap every
case-insensitive whole-word occurrence of every queryWord" — rather than the
source's regex scan, to be compared with `hlGo`. -/

/-- Modelled from the spec: `w` occurs at position `i` of `s` as a
case-insensitive whole-word match — the next `w.length` characters equal `w`
up to ASCII case, the character before position `i` (if any) is not a word
character, and the character after the occurrence (if any) is not a word
character. -/
def specWholeWordAt (w s : List Char) (i : Nat) : Prop :=
  ((s.drop i).take w.length).map Char.toLower = w.map Char.toLower ∧
  wAt ((s.take i).reverse) = false ∧
  wAt (s.drop (i + w.length)) = false

instance (w s : List Char) (i : Nat) : Decidable (specWholeWordAt w s i) := by
  unfold specWholeWordAt
  infer_instance

/-- Modelled from the spec: walk the string and wrap every case-insensitive
whole-word occurrence of `w` in `**...**`, copying all other characters
(occurrences of a nonempty all-word-character `w` never overlap, so the
left-to-right walk wraps each of them). -/
def specHighlightGo (w s : List Char) (i : Nat) : List Char :=
  match h : s.drop i with
  | [] => []
  | c :: _ =>
    if h2 : w ≠ [] ∧ specWholeWordAt w s i then
      '*' :: '*' :: ((s.drop i).take w.length ++ '*' :: '*' ::
        specHighlightGo w s (i + w.length))
    else c :: specHighlightGo w s (i + 1)
termination_by s.length - i
decreasing_by
  · have hi : i < s.length := by
      by_contra hc
      rw [List.drop_eq_nil_of_le (by omega)] at h
      exact List.noConfusion h
    have hw : w.length ≠ 0 := fun hn => h2.1 (List.eq_nil_of_length_eq_zero hn)
    omega
  · have hi : i < s.length := by
      by_contra hc
      rw [List.drop_eq_nil_of_le (by omega)] at h
      exact List.noConfusion h
    omega

/-- Modelled from the spec: the whole-word highlighting of one query word. -/
def specHighlight (w s : List Char) : List Char :=
  specHighlightGo w s 0

/-! ## Association-list lemmas -/

@[simp]
theorem alKeys_nil {κ α : Type} : alKeys ([] : List (κ × α)) = [] := rfl

@[simp]
theorem alKeys_cons {κ α : Type} (p : κ × α) (l : List (κ × α)) :
    alKeys (p :: l) = p.1 :: alKeys l := rfl

theorem alKeys_append {κ α : Type} (l1 l2 : List (κ × α)) :
    alKeys (l1 ++ l2) = alKeys l1 ++ alKeys l2 := by
  simp [alKeys]

theorem alGet_alSet_self {κ α : Type} [DecidableEq κ] (k : κ) (v : α)
    (l : List (κ × α)) : alGet k (alSet k v l) = some v := by
  induction l with
  | nil => simp [alGet, alSet]
  | cons p rest ih =>
    obtain ⟨k1, v1⟩ := p
    by_cases h : k1 = k
    · simp [alGet, alSet, h]
    · simp [alGet, alSet, h, ih]

theorem alGet_alSet_ne {κ α : Type} [DecidableEq κ] {k1 k : κ} (v : α)
    (l : List (κ × α)) (h : k1 ≠ k) :
    alGet k1 (alSet k v l) = alGet k1 l := by
  have h4 : ¬ k = k1 := fun he => h he.symm
  induction l with
  | nil => simp [alGet, alSet, h4]
  | cons p rest ih =>
    obtain ⟨k2, v2⟩ := p
    by_cases h2 : k2 = k
    · subst h2
      simp [alGet, alSet, h4]
    · by_cases h3 : k2 = k1 <;> simp [alGet, alSet, h, h2, h3, ih]

theorem mem_alKeys_of_alGet {κ α : Type} [DecidableEq κ] {k : κ} {v : α}
    {l : List (κ × α)} (h : alGet k l = some v) : k ∈ alKeys l := by
  induction l with
  | nil => simp [alGet] at h
  | cons p rest ih =>
    obtain ⟨k1, v1⟩ := p
    rw [alKeys_cons]
    by_cases h1 : k1 = k
    · exact h1 ▸ List.mem_cons_self _ _
    · rw [alGet, if_neg h1] at h
      exact List.mem_cons_of_mem _ (ih h)

theorem alGet_eq_none {κ α : Type} [DecidableEq κ] {k : κ}
    {l : List (κ × α)} (h : k ∉ alKeys l) : alGet k l = none := by
  induction l with
  | nil => rfl
  | cons p rest ih =>
    obtain ⟨k1, v1⟩ := p
    rw [alKeys_cons, List.mem_cons, not_or] at h
    rw [alGet, if_neg (fun he => h.1 he.symm)]
    exact ih h.2

theorem mem_of_alGet {κ α : Type} [DecidableEq κ] {k : κ} {v : α}
    {l : List (κ × α)} (h : alGet k l = some v) : (k, v) ∈ l := by
  induction l with
  | nil => simp [alGet] at h
  | cons p rest ih =>
    obtain ⟨k1, v1⟩ := p
    by_cases h1 : k1 = k
    · rw [alGet, if_pos h1] at h
      subst h1
      obtain rfl : v1 = v := by injection h
      exact List.mem_cons_self _ _
    · rw [alGet, if_neg h1] at h
      exact List.mem_cons_of_mem _ (ih h)

theorem alSet_eq_append {κ α : Type} [DecidableEq κ] {k : κ} (v : α)
    {l : List (κ × α)} (h : k ∉ alKeys l) : alSet k v l = l ++ [(k, v)] := by
  induction l with
  | nil => rfl
  | cons p rest ih =>
    obtain ⟨k1, v1⟩ := p
    rw [alKeys_cons, List.mem_cons, not_or] at h
    rw [alSet, if_neg (fun he => h.1 he.symm)]
    rw [ih h.2]
    rfl

theorem mem_alKeys_alSet {κ α : Type} [DecidableEq κ] {k1 k : κ} (v : α)
    (l : List (κ × α)) :
    k1 ∈ alKeys (alSet k v l) ↔ k1 ∈ alKeys l ∨ k1 = k := by
  induction l with
  | nil => simp [alSet]
  | cons p rest ih =>
    obtain ⟨k2, v2⟩ := p
    by_cases h2 : k2 = k
    · subst h2
      simp [alSet]
      tauto
    · rw [alSet, if_neg h2, alKeys_cons, alKeys_cons, List.mem_cons,
        List.mem_cons, ih]
      tauto

theorem alKeys_alSet_of_mem {κ α : Type} [DecidableEq κ] {k : κ} (v : α)
    {l : List (κ × α)} (h : k ∈ alKeys l) :
    alKeys (alSet k v l) = alKeys l := by
  induction l with
  | nil => simp at h
  | cons p rest ih =>
    obtain ⟨k1, v1⟩ := p
    by_cases h1 : k1 = k
    · subst h1
      simp [alSet]
    · rw [alKeys_cons, List.mem_cons] at h
      rcases h with h | h

      · exact absurd h.symm h1
      · rw [alSet, if_neg h1, alKeys_cons, alKeys_cons, ih h]

theorem alKeys_nodup_alSet {κ α : Type} [DecidableEq κ] (k : κ) (v : α)
    {l : List (κ × α)} (h : (alKeys l).Nodup) :
    (alKeys (alSet k v l)).Nodup := by
  by_cases hm : k ∈ alKeys l
  · rw [alKeys_alSet_of_mem v hm]
    exact h
  · rw [alSet_eq_append v hm, alKeys_append]
    refine List.Nodup.append h (List.nodup_singleton k) ?_
    intro a ha hak
    rw [alKeys_cons] at hak
    simp at hak
    exact hm (hak ▸ ha)

theorem alGet_alErase_self {κ α : Type} [DecidableEq κ] (k : κ)
    (l : List (κ × α)) : alGet k (alErase k l) = none := by
  induction l with
  | nil => rfl
  | cons p rest ih =>
    obtain ⟨k1, v1⟩ := p
    by_cases h1 : k1 = k
    · subst h1
      rw [alErase, List.filter_cons]
      simp only [decide_not]
      rw [if_neg (by simp)]
      simpa [alErase] using ih
    · rw [alErase, List.filter_cons]
      rw [if_pos (by simpa using h1)]
      rw [alGet, if_neg h1]
      simpa [alErase] using ih

theorem alGet_alErase_ne {κ α : Type} [DecidableEq κ] {k1 k : κ}
    (l : List (κ × α)) (h : k1 ≠ k) :
    alGet k1 (alErase k l) = alGet k1 l := by
  induction l with
  | nil => rfl
  | cons p rest ih =>
    obtain ⟨k2, v2⟩ := p
    by_cases h2 : k2 = k
    · subst h2
      rw [alErase, List.filter_cons, if_neg (by simp)]
      rw [alGet, if_neg (fun he => h he.symm)]
      exact ih
    · rw [alErase, List.filter_cons, if_pos (by simpa using h2)]
      rw [alGet, alGet]
      by_cases h3 : k2 = k1
      · rw [if_pos h3, if_pos h3]
      · rw [if_neg h3, if_neg h3]
        exact ih

theorem alErase_eq_self {κ α : Type} [DecidableEq κ] {k : κ}
    {l : List (κ × α)} (h : k ∉ alKeys l) : alErase k l = l := by
  induction l with
  | nil => rfl
  | cons p rest ih =>
    obtain ⟨k1, v1⟩ := p
    rw [alKeys_cons, List.mem_cons, not_or] at h
    rw [alErase, List.filter_cons, if_pos (by simp; exact fun he => h.1 he.symm)]
    have := ih h.2
    rw [alErase] at this
    rw [this]

theorem alErase_append {κ α : Type} [DecidableEq κ] (k : κ)
    (l1 l2 : List (κ × α)) :
    alErase k (l1 ++ l2) = alErase k l1 ++ alErase k l2 := by
  simp [alErase, List.filter_append]

theorem alErase_alSet_self {κ α : Type} [DecidableEq κ] (k : κ) (v : α)
    (l : List (κ × α)) : alErase k (alSet k v l) = alErase k l := by
  induction l with
  | nil => simp [alSet, alErase, List.filter]
  | cons p rest ih =>
    obtain ⟨k1, v1⟩ := p
    by_cases h1 : k1 = k
    · subst h1
      rw [alSet, if_pos rfl, alErase, alErase, List.filter_cons,
        List.filter_cons]
      rw [if_neg (by simp), if_neg (by simp)]
    · rw [alSet, if_neg h1, alErase, alErase, List.filter_cons,
        List.filter_cons]
      by_cases h3 : k1 = k
      · exact absurd h3 h1
      · rw [if_pos (by simpa using h3), if_pos (by simpa using h3)]
        have := ih
        rw [alErase, alErase] at this
        rw [this]

/-! ## Trivial queries (C9) and the read-only nature of search (C10) -/

theorem dropWhile_eq_nil_of_all {p : Char → Bool} {l : List Char}
    (h : ∀ c ∈ l, p c = true) : l.dropWhile p = [] := by
  induction l with
  | nil => rfl
  | cons c rest ih =>
    rw [List.dropWhile_cons, if_pos (h c (List.mem_cons_self _ _))]
    exact ih (fun c1 hc1 => h c1 (List.mem_cons_of_mem _ hc1))

theorem trim_eq_nil_of_ws {q : List Char} (h : ∀ c ∈ q, isWs c = true) :
    trim q = [] := by
  rw [trim, dropWhile_eq_nil_of_all h]
  rfl

/-- C9: `search` returns the empty result list (and, being a total function,
raises no error) whenever the query is empty, is all whitespace, or tokenizes
to zero terms, for every engine state and limit. -/
theorem search_trivial_query_returns_nil (st : EngineState) (q : List Char)
    (lim : Nat)
    (h : q = [] ∨ (∀ c ∈ q, isWs c = true) ∨ tokenize (lowerStr q) = []) :
    search st q lim = [] := by
  rcases h with h | h | h
  · subst h
    rfl
  · rw [search, if_pos (by rw [trim_eq_nil_of_ws h]; rfl)]
  · rw [search]
    by_cases h0 : (trim q).length = 0
    · rw [if_pos h0]
    · rw [if_neg h0]
      simp only [h, List.length_nil]
      rfl

/-- Witness for C9 at the all-whitespace query `"   "`. -/
theorem search_trivial_query_returns_nil_witness :
    search emptyEngine (String.toList "   ") 3 = [] :=
  search_trivial_query_returns_nil emptyEngine _ 3 (Or.inr (Or.inl (by decide)))

/-- C10: `search` is read-only — the state after a call (the `search` method
body contains no assignment to `this.documents` or `this.invertedIndex`, so
its effect on them, snippet extraction included, is the identity) is the state
before it, including every posting map and position list. -/
theorem search_is_readonly (st : EngineState) (q : List Char) (lim : Nat) :
    (searchOp st q lim).2 = st := rfl

/-! ## Lemmas about the index sweep of removeDocument -/

theorem removeAll_nil (docId : String) : removeAll docId [] = [] := rfl

theorem removeAll_cons (docId : String) (k : List Char)
    (dm : List (String × List Nat))
    (rest : List (List Char × List (String × List Nat))) :
    removeAll docId ((k, dm) :: rest) =
      if alErase docId dm = [] then removeAll docId rest
      else (k, alErase docId dm) :: removeAll docId rest := by
  rw [removeAll, List.map_cons, List.filter_cons]
  by_cases h : alErase docId dm = []
  · rw [if_neg (by simpa using h), if_pos h]
    rfl
  · rw [if_pos (by simpa using h), if_neg h]
    rfl

theorem mem_alKeys_removeAll {docId : String} {w : List Char}
    {idx : List (List Char × List (String × List Nat))}
    (h : w ∈ alKeys (removeAll docId idx)) : w ∈ alKeys idx := by
  induction idx with
  | nil => exact absurd h (by simp [removeAll_nil])
  | cons p rest ih =>
    obtain ⟨k, dm⟩ := p
    rw [removeAll_cons] at h
    rw [alKeys_cons]
    by_cases h1 : alErase docId dm = []
    · rw [if_pos h1] at h
      exact List.mem_cons_of_mem _ (ih h)
    · rw [if_neg h1, alKeys_cons] at h
      rcases List.mem_cons.mp h with h | h
      · exact h ▸ List.mem_cons_self _ _
      · exact List.mem_cons_of_mem _ (ih h)

theorem mem_removeAll {docId : String}
    {idx : List (List Char × List (String × List Nat))}
    {p : List Char × List (String × List Nat)}
    (h : p ∈ removeAll docId idx) :
    ∃ dm, (p.1, dm) ∈ idx ∧ p.2 = alErase docId dm ∧ p.2 ≠ [] := by
  rw [removeAll] at h
  obtain ⟨hm, hne⟩ := List.mem_filter.mp h
  obtain ⟨q, hq, he⟩ := List.mem_map.mp hm
  refine ⟨q.2, ?_, ?_, by simpa using hne⟩
  · rw [← he]
    exact hq
  · rw [← he]

theorem alGet_some_of_mem_alKeys {κ α : Type} [DecidableEq κ] {k : κ}
    {l : List (κ × α)} (h : k ∈ alKeys l) : ∃ v, alGet k l = some v := by
  induction l with
  | nil => exact absurd h (by simp)
  | cons p rest ih =>
    obtain ⟨k1, v1⟩ := p
    by_cases h1 : k1 = k
    · exact ⟨v1, by rw [alGet, if_pos h1]⟩
    · rw [alKeys_cons, List.mem_cons] at h
      rcases h with h | h
      · exact absurd h.symm h1
      · obtain ⟨v, hv⟩ := ih h
        exact ⟨v, by rw [alGet, if_neg h1]; exact hv⟩

theorem alGet_removeAll_none {docId : String} {w : List Char}
    {idx : List (List Char × List (String × List Nat))}
    (h : alGet w idx = none) : alGet w (removeAll docId idx) = none := by
  by_cases h1 : w ∈ alKeys (removeAll docId idx)
  · obtain ⟨v, hv⟩ := alGet_some_of_mem_alKeys (mem_alKeys_removeAll h1)
    rw [h] at hv
    exact Option.noConfusion hv
  · exact alGet_eq_none h1

theorem alGet_removeAll_some {docId : String}
    {idx : List (List Char × List (String × List Nat))}
    (hnd : (alKeys idx).Nodup) {w : List Char}
    {dm : List (String × List Nat)} (h : alGet w idx = some dm) :
    alGet w (removeAll docId idx) =
      if alErase docId dm = [] then none else some (alErase docId dm) := by
  induction idx with
  | nil => exact absurd h (by simp [alGet])
  | cons p rest ih =>
    obtain ⟨k, dm0⟩ := p
    rw [alKeys_cons, List.nodup_cons] at hnd
    rw [removeAll_cons]
    by_cases h1 : k = w
    · subst h1
      rw [alGet, if_pos rfl] at h
      have hdm : dm0 = dm := by injection h
      rw [hdm]
      by_cases h2 : alErase docId dm = []
      · rw [if_pos h2, if_pos h2]
        exact alGet_eq_none
          (fun hm => hnd.1 (mem_alKeys_removeAll hm))
      · rw [if_neg h2, if_neg h2, alGet, if_pos rfl]
    · rw [alGet, if_neg h1] at h
      by_cases h2 : alErase docId dm0 = []
      · rw [if_pos h2]
        exact ih hnd.2 h
      · rw [if_neg h2, alGet, if_neg h1]
        exact ih hnd.2 h

theorem alGet_of_alErase_eq_nil {docId d : String}
    {dm : List (String × List Nat)} (hd : d ≠ docId)
    (h : alErase docId dm = []) : alGet d dm = none := by
  cases h2 : alGet d dm with
  | none => rfl
  | some v =>
    exfalso
    have hm := mem_of_alGet h2
    have := List.filter_eq_nil.mp h
    have h3 := this _ hm
    simp at h3
    exact hd h3

/-- C4: `removeDocument(id)` returns `false` and leaves store and index fully
unchanged when `id` is unknown; otherwise it returns `true`, deletes the
record (other records untouched), deletes this document's entry from every
token's posting map (other documents' postings untouched), and deletes
exactly those tokens whose posting map becomes empty. -/
theorem removeDocument_spec (st : EngineState) (docId : String)
    (hnd : (alKeys st.invertedIndex).Nodup) :
    (alGet docId st.documents = none → removeDocument st docId = (false, st)) ∧
    (∀ doc, alGet docId st.documents = some doc →
      (removeDocument st docId).1 = true ∧
      alGet docId (removeDocument st docId).2.documents = none ∧
      (∀ d, d ≠ docId →
        alGet d (removeDocument st docId).2.documents = alGet d st.documents) ∧
      (∀ w, posGet (removeDocument st docId).2.invertedIndex w docId = none) ∧
      (∀ w d, d ≠ docId →
        posGet (removeDocument st docId).2.invertedIndex w d =
          posGet st.invertedIndex w d) ∧
      (∀ p ∈ (removeDocument st docId).2.invertedIndex, p.2 ≠ []) ∧
      (∀ w dm, alGet w st.invertedIndex = some dm →
        alGet w (removeDocument st docId).2.invertedIndex =
          if alErase docId dm = [] then none
          else some (alErase docId dm))) := by
  constructor
  · intro h
    rw [removeDocument, h]
  · intro doc h
    rw [removeDocument, h]
    refine ⟨rfl, alGet_alErase_self _ _, ?_, ?_, ?_, ?_, ?_⟩
    · intro d hd
      exact alGet_alErase_ne _ hd
    · intro w
      rw [posGet]
      cases h2 : alGet w (removeAll docId st.invertedIndex) with
      | none => rfl
      | some dm1 =>
        obtain ⟨dm, _, he, _⟩ := mem_removeAll (mem_of_alGet h2)
        simp only at he
        show alGet docId dm1 = none
        rw [he]
        exact alGet_alErase_self _ _
    · intro w d hd
      rw [posGet, posGet]
      cases h2 : alGet w st.invertedIndex with
      | none => rw [alGet_removeAll_none h2]
      | some dm =>
        rw [alGet_removeAll_some hnd h2]
        by_cases h3 : alErase docId dm = []
        · rw [if_pos h3]
          show (none : Option (List Nat)) = alGet d dm
          rw [alGet_of_alErase_eq_nil hd h3]
        · rw [if_neg h3]
          show alGet d (alErase docId dm) = alGet d dm
          exact alGet_alErase_ne _ hd
    · intro p hp
      obtain ⟨_, _, _, hne⟩ := mem_removeAll hp
      exact hne
    · intro w dm h2
      exact alGet_removeAll_some hnd h2

/-- Witness for C4 on a one-document engine: removing an unknown id returns
`false` with the state unchanged. -/
theorem removeDocument_spec_witness :
    removeDocument
        (addDocument emptyEngine ⟨"d1", "a.txt", String.toList "apple sauce", "t0"⟩)
        "nope" =
      (false,
        addDocument emptyEngine ⟨"d1", "a.txt", String.toList "apple sauce", "t0"⟩) :=
  (removeDocument_spec _ "nope" (by decide)).1 (by decide)

/-! ## The add-then-remove round trip (C5) -/

theorem not_mem_alKeys_of_alGet_none {κ α : Type} [DecidableEq κ] {k : κ}
    {l : List (κ × α)} (h : alGet k l = none) : k ∉ alKeys l := by
  intro hm
  obtain ⟨v, hv⟩ := alGet_some_of_mem_alKeys hm
  rw [h] at hv
  exact Option.noConfusion hv

theorem removeAll_append (docId : String)
    (l1 l2 : List (List Char × List (String × List Nat))) :
    removeAll docId (l1 ++ l2) =
      removeAll docId l1 ++ removeAll docId l2 := by
  simp [removeAll, List.filter_append]

theorem alErase_singleton_self {κ α : Type} [DecidableEq κ] (k : κ) (v : α) :
    alErase k [(k, v)] = [] := by
  simp [alErase]

theorem removeAll_alSet {docId : String}
    {idx : List (List Char × List (String × List Nat))}
    {w : List Char} {dm dm1 : List (String × List Nat)}
    (hw : alGet w idx = some dm)
    (he : alErase docId dm1 = alErase docId dm) :
    removeAll docId (alSet w dm1 idx) = removeAll docId idx := by
  induction idx with
  | nil => exact absurd hw (by simp [alGet])
  | cons p rest ih =>
    obtain ⟨k0, dm0⟩ := p
    by_cases h0 : k0 = w
    · subst h0
      rw [alGet, if_pos rfl] at hw
      have hdm : dm0 = dm := by injection hw
      rw [alSet, if_pos rfl, removeAll_cons, removeAll_cons, hdm, he]
    · rw [alSet, if_neg h0, removeAll_cons, removeAll_cons]
      rw [alGet, if_neg h0] at hw
      by_cases h2 : alErase docId dm0 = []
      · rw [if_pos h2, if_pos h2]
        exact ih hw
      · rw [if_neg h2, if_neg h2, ih hw]

theorem addPosting_of_none
    {idx : List (List Char × List (String × List Nat))} {w : List Char}
    (docId : String) (pos : Nat) (hw : alGet w idx = none) :
    addPosting idx w docId pos = alSet w [(docId, [pos])] idx := by
  rw [addPosting, hw]

theorem addPosting_of_some_none
    {idx : List (List Char × List (String × List Nat))} {w : List Char}
    {dm : List (String × List Nat)} {docId : String} (pos : Nat)
    (hw : alGet w idx = some dm) (hd : alGet docId dm = none) :
    addPosting idx w docId pos = alSet w (dm ++ [(docId, [pos])]) idx := by
  rw [addPosting, hw]
  show (match alGet docId dm with
    | none => alSet w (dm ++ [(docId, [pos])]) idx
    | some ps => alSet w (alSet docId (ps ++ [pos]) dm) idx) = _
  rw [hd]

theorem addPosting_of_some_some
    {idx : List (List Char × List (String × List Nat))} {w : List Char}
    {dm : List (String × List Nat)} {docId : String} {ps : List Nat}
    (pos : Nat) (hw : alGet w idx = some dm) (hd : alGet docId dm = some ps) :
    addPosting idx w docId pos =
      alSet w (alSet docId (ps ++ [pos]) dm) idx := by
  rw [addPosting, hw]
  show (match alGet docId dm with
    | none => alSet w (dm ++ [(docId, [pos])]) idx
    | some ps1 => alSet w (alSet docId (ps1 ++ [pos]) dm) idx) = _
  rw [hd]

theorem removeAll_addPosting (docId : String)
    (idx : List (List Char × List (String × List Nat)))
    (w : List Char) (pos : Nat) :
    removeAll docId (addPosting idx w docId pos) = removeAll docId idx := by
  cases hw : alGet w idx with
  | none =>
    rw [addPosting_of_none docId pos hw]
    rw [alSet_eq_append _ (not_mem_alKeys_of_alGet_none hw), removeAll_append]
    rw [show removeAll docId [(w, [(docId, [pos])])] = [] from by
      rw [removeAll_cons, alErase_singleton_self, if_pos rfl, removeAll_nil]]
    rw [List.append_nil]
  | some dm =>
    cases hd : alGet docId dm with
    | none =>
      rw [addPosting_of_some_none pos hw hd]
      refine removeAll_alSet hw ?_
      rw [alErase_append, alErase_singleton_self, List.append_nil]
    | some ps =>
      rw [addPosting_of_some_some pos hw hd]
      refine removeAll_alSet hw ?_
      exact alErase_alSet_self _ _ _

theorem removeAll_fold_addPosting (docId : String)
    (l : List (Nat × List Char))
    (idx : List (List Char × List (String × List Nat))) :
    removeAll docId
        (l.foldl (fun ix pw => addPosting ix pw.2 docId pw.1) idx) =
      removeAll docId idx := by
  induction l generalizing idx with
  | nil => rfl
  | cons pw rest ih =>
    rw [List.foldl_cons, ih, removeAll_addPosting]

theorem removeAll_eq_self {docId : String}
    {idx : List (List Char × List (String × List Nat))}
    (h : ∀ p ∈ idx, alGet docId p.2 = none ∧ p.2 ≠ []) :
    removeAll docId idx = idx := by
  induction idx with
  | nil => rfl
  | cons p rest ih =>
    obtain ⟨k, dm⟩ := p
    obtain ⟨hg, hne⟩ := h _ (List.mem_cons_self _ _)
    have he : alErase docId dm = dm :=
      alErase_eq_self (not_mem_alKeys_of_alGet_none hg)
    rw [removeAll_cons, he, if_neg hne,
      ih (fun q hq => h q (List.mem_cons_of_mem _ hq))]

theorem alErase_alSet_fresh {κ α : Type} [DecidableEq κ] {k : κ} (v : α)
    {l : List (κ × α)} (h : k ∉ alKeys l) : alErase k (alSet k v l) = l := by
  rw [alSet_eq_append _ h, alErase_append, alErase_singleton_self,
    List.append_nil, alErase_eq_self h]

/-- Adding a fresh document and immediately removing it restores the exact
engine state (hence also the stats). -/
theorem add_remove_roundtrip (st : EngineState) (doc : Document)
    (hfresh : alGet doc.id st.documents = none)
    (hidx : ∀ p ∈ st.invertedIndex, alGet doc.id p.2 = none ∧ p.2 ≠ []) :
    removeDocument (addDocument st doc) doc.id = (true, st) := by
  have hget : alGet doc.id (addDocument st doc).documents = some doc := by
    rw [addDocument]
    show alGet doc.id (alSet doc.id doc st.documents) = some doc
    exact alGet_alSet_self _ _ _
  rw [removeDocument, hget]
  have hdocs : alErase doc.id (addDocument st doc).documents = st.documents := by
    show alErase doc.id (alSet doc.id doc st.documents) = st.documents
    exact alErase_alSet_fresh _ (not_mem_alKeys_of_alGet_none hfresh)
  have hindex : removeAll doc.id (addDocument st doc).invertedIndex =
      st.invertedIndex := by
    show removeAll doc.id
        ((docTokens doc).enum.foldl
          (fun ix pw => addPosting ix pw.2 doc.id pw.1) st.invertedIndex) =
      st.invertedIndex
    rw [removeAll_fold_addPosting, removeAll_eq_self hidx]
  rw [hdocs, hindex]

/-- C5 (amended): for a document whose id is not currently stored (and an
index that, as the engine maintains, has no postings under that id and no
empty posting map), `addDocument` followed by `removeDocument` restores the
exact prior state, so `getIndexStats` returns to its pre-add values with no
leaked tokens or postings. -/
theorem add_remove_restores_stats (st : EngineState) (doc : Document)
    (hfresh : alGet doc.id st.documents = none)
    (hidx : ∀ p ∈ st.invertedIndex, alGet doc.id p.2 = none ∧ p.2 ≠ []) :
    (removeDocument (addDocument st doc) doc.id).2 = st ∧
    getIndexStats (removeDocument (addDocument st doc) doc.id).2 =
      getIndexStats st := by
  have h := add_remove_roundtrip st doc hfresh hidx
  rw [h]
  exact ⟨rfl, rfl⟩

/-- Witness for C5 (amended) on a one-document engine and a fresh second
document. -/
theorem add_remove_restores_stats_witness :
    (removeDocument
        (addDocument
          (addDocument emptyEngine ⟨"d1", "a.txt", String.toList "apple sauce", "t0"⟩)
          ⟨"d2", "c.txt", String.toList "apple apple banana", "t2"⟩)
        "d2").2 =
      addDocument emptyEngine ⟨"d1", "a.txt", String.toList "apple sauce", "t0"⟩ :=
  (add_remove_restores_stats _ _ (by decide) (by decide)).1

/-- Counterexample to C5 as stated: when the added document re-uses a stored
id ("d1"), removing it afterwards also removes the original document's
postings, so the stats do not return to their pre-add values. -/
theorem add_remove_not_restoring_on_reused_id :
    getIndexStats
        (removeDocument
          (addDocument
            (addDocument emptyEngine
              ⟨"d1", "a.txt", String.toList "apple sauce", "t0"⟩)
            ⟨"d1", "b.txt", String.toList "banana split", "t1"⟩)
          "d1").2 ≠
      getIndexStats
        (addDocument emptyEngine
          ⟨"d1", "a.txt", String.toList "apple sauce", "t0"⟩) := by
  decide

/-! ## Effect of indexing on keys and postings (towards C3) -/

theorem alGet_append {κ α : Type} [DecidableEq κ] (k : κ)
    (l1 l2 : List (κ × α)) :
    alGet k (l1 ++ l2) =
      match alGet k l1 with
      | some v => some v
      | none => alGet k l2 := by
  induction l1 with
  | nil => rfl
  | cons p rest ih =>
    obtain ⟨k1, v1⟩ := p
    by_cases h1 : k1 = k
    · rw [List.cons_append, alGet, if_pos h1, alGet, if_pos h1]
    · rw [List.cons_append, alGet, if_neg h1, alGet, if_neg h1, ih]

theorem mem_alKeys_iff_isSome {κ α : Type} [DecidableEq κ] {k : κ}
    {l : List (κ × α)} : k ∈ alKeys l ↔ (alGet k l).isSome = true := by
  constructor
  · intro h
    obtain ⟨v, hv⟩ := alGet_some_of_mem_alKeys h
    rw [hv]
    rfl
  · intro h
    cases hv : alGet k l with
    | none => rw [hv] at h; exact Bool.noConfusion h
    | some v => exact mem_alKeys_of_alGet hv

theorem mem_alKeys_addPosting
    {idx : List (List Char × List (String × List Nat))} (w : List Char)
    (docId : String) (pos : Nat) (x : List Char) :
    x ∈ alKeys (addPosting idx w docId pos) ↔ x ∈ alKeys idx ∨ x = w := by
  cases hw : alGet w idx with
  | none =>
    rw [addPosting_of_none docId pos hw]
    exact mem_alKeys_alSet _ _
  | some dm =>
    cases hd : alGet docId dm with
    | none =>
      rw [addPosting_of_some_none pos hw hd]
      exact mem_alKeys_alSet _ _
    | some ps =>
      rw [addPosting_of_some_some pos hw hd]
      exact mem_alKeys_alSet _ _

theorem posGet_eq {idx : List (List Char × List (String × List Nat))}
    {w : List Char} {dm : List (String × List Nat)} (d : String)
    (h : alGet w idx = some dm) : posGet idx w d = alGet d dm := by
  rw [posGet, h]

theorem posGet_eq_none {idx : List (List Char × List (String × List Nat))}
    {w : List Char} (d : String) (h : alGet w idx = none) :
    posGet idx w d = none := by
  rw [posGet, h]

theorem posGet_alSet_ne {idx : List (List Char × List (String × List Nat))}
    {w1 w : List Char} (dm1 : List (String × List Nat)) (d1 : String)
    (hww : w1 ≠ w) :
    posGet (alSet w dm1 idx) w1 d1 = posGet idx w1 d1 := by
  rw [posGet, alGet_alSet_ne _ _ hww, posGet]

theorem alGet_singleton {κ α : Type} [DecidableEq κ] (k k1 : κ) (v : α) :
    alGet k1 [(k, v)] = if k = k1 then some v else none := rfl

theorem posGet_addPosting
    (idx : List (List Char × List (String × List Nat))) (w : List Char)
    (docId : String) (pos : Nat) (w1 : List Char) (d1 : String) :
    (posGet (addPosting idx w docId pos) w1 d1).isSome = true ↔
      (posGet idx w1 d1).isSome = true ∨ (w1 = w ∧ d1 = docId) := by
  cases hw : alGet w idx with
  | none =>
    rw [addPosting_of_none docId pos hw]
    by_cases hww : w1 = w
    · subst hww
      rw [posGet_eq d1 (alGet_alSet_self _ _ _), posGet_eq_none d1 hw,
        alGet_singleton]
      by_cases hdd : docId = d1
      · subst hdd
        simp
      · rw [if_neg hdd]
        simp
        exact fun he => hdd he.symm
    · rw [posGet_alSet_ne _ _ hww]
      simp [hww]
  | some dm =>
    cases hd : alGet docId dm with
    | none =>
      rw [addPosting_of_some_none pos hw hd]
      by_cases hww : w1 = w
      · subst hww
        rw [posGet_eq d1 (alGet_alSet_self _ _ _), posGet_eq d1 hw,
          alGet_append]
        cases hg : alGet d1 dm with
        | some v => simp
        | none =>
          rw [alGet_singleton]
          by_cases hdd : docId = d1
          · subst hdd
            simp
          · rw [if_neg hdd]
            simp
            exact fun he => hdd he.symm
      · rw [posGet_alSet_ne _ _ hww]
        simp [hww]
    | some ps =>
      rw [addPosting_of_some_some pos hw hd]
      by_cases hww : w1 = w
      · subst hww
        rw [posGet_eq d1 (alGet_alSet_self _ _ _), posGet_eq d1 hw]
        by_cases hdd : d1 = docId
        · subst hdd
          rw [alGet_alSet_self, hd]
          simp
        · rw [alGet_alSet_ne _ _ hdd]
          simp [hdd]
      · rw [posGet_alSet_ne _ _ hww]
        simp [hww]

theorem posGet_fold_addPosting (docId : String)
    (l : List (Nat × List Char))
    (idx : List (List Char × List (String × List Nat)))
    (w1 : List Char) (d1 : String) :
    (posGet (l.foldl (fun ix pw => addPosting ix pw.2 docId pw.1) idx)
        w1 d1).isSome = true ↔
      (posGet idx w1 d1).isSome = true ∨
        (d1 = docId ∧ w1 ∈ l.map (fun pw => pw.2)) := by
  induction l generalizing idx with
  | nil => simp
  | cons pw rest ih =>
    rw [List.foldl_cons, ih, posGet_addPosting]
    rw [List.map_cons, List.mem_cons]
    tauto

theorem mem_alKeys_fold_addPosting (docId : String)
    (l : List (Nat × List Char))
    (idx : List (List Char × List (String × List Nat))) (x : List Char) :
    x ∈ alKeys (l.foldl (fun ix pw => addPosting ix pw.2 docId pw.1) idx) ↔
      x ∈ alKeys idx ∨ x ∈ l.map (fun pw => pw.2) := by
  induction l generalizing idx with
  | nil => simp
  | cons pw rest ih =>
    rw [List.foldl_cons, ih, mem_alKeys_addPosting]
    rw [List.map_cons, List.mem_cons]
    tauto

/-! ## Preservation of structural well-formedness -/

theorem mem_alSet {κ α : Type} [DecidableEq κ] {p : κ × α} {k : κ} {v : α}
    {l : List (κ × α)} (h : p ∈ alSet k v l) : p = (k, v) ∨ p ∈ l := by
  induction l with
  | nil =>
    rw [alSet] at h
    rcases List.mem_singleton.mp h with h1
    exact Or.inl h1
  | cons q rest ih =>
    obtain ⟨k1, v1⟩ := q
    rw [alSet] at h
    by_cases h1 : k1 = k
    · rw [if_pos h1] at h
      rcases List.mem_cons.mp h with h2 | h2
      · exact Or.inl h2
      · exact Or.inr (List.mem_cons_of_mem _ h2)
    · rw [if_neg h1] at h
      rcases List.mem_cons.mp h with h2 | h2
      · exact Or.inr (h2 ▸ List.mem_cons_self _ _)
      · rcases ih h2 with h3 | h3
        · exact Or.inl h3
        · exact Or.inr (List.mem_cons_of_mem _ h3)

theorem alSet_ne_nil {κ α : Type} [DecidableEq κ] (k : κ) (v : α)
    (l : List (κ × α)) : alSet k v l ≠ [] := by
  cases l with
  | nil => simp [alSet]
  | cons q rest =>
    obtain ⟨k1, v1⟩ := q
    rw [alSet]
    split <;> simp

theorem indexWF_addPosting
    {idx : List (List Char × List (String × List Nat))} (h : indexWF idx)
    (w : List Char) (docId : String) (pos : Nat) :
    indexWF (addPosting idx w docId pos) := by
  obtain ⟨hnd, hent⟩ := h
  cases hw : alGet w idx with
  | none =>
    rw [addPosting_of_none docId pos hw]
    refine ⟨alKeys_nodup_alSet _ _ hnd, ?_⟩
    intro p hp
    rcases mem_alSet hp with hp1 | hp1
    · subst hp1
      refine ⟨by simp, by simp, ?_⟩
      intro q hq
      rw [List.mem_singleton.mp hq]
      simp
    · exact hent _ hp1
  | some dm =>
    obtain ⟨dmnd, dmne, dmpos⟩ := hent _ (mem_of_alGet hw)
    cases hd : alGet docId dm with
    | none =>
      rw [addPosting_of_some_none pos hw hd]
      refine ⟨alKeys_nodup_alSet _ _ hnd, ?_⟩
      intro p hp
      rcases mem_alSet hp with hp1 | hp1
      · subst hp1
        refine ⟨?_, by simp, ?_⟩
        · rw [alKeys_append]
          refine List.Nodup.append dmnd (by simp) ?_
          intro a ha hak
          rw [alKeys_cons] at hak
          simp at hak
          exact not_mem_alKeys_of_alGet_none hd (hak ▸ ha)
        · intro q hq
          rcases List.mem_append.mp hq with hq1 | hq1
          · exact dmpos _ hq1
          · rw [List.mem_singleton.mp hq1]
            simp
      · exact hent _ hp1
    | some ps =>
      rw [addPosting_of_some_some pos hw hd]
      refine ⟨alKeys_nodup_alSet _ _ hnd, ?_⟩
      intro p hp
      rcases mem_alSet hp with hp1 | hp1
      · subst hp1
        refine ⟨alKeys_nodup_alSet _ _ dmnd, alSet_ne_nil _ _ _, ?_⟩
        intro q hq
        rcases mem_alSet hq with hq1 | hq1
        · rw [hq1]
          simp
        · exact dmpos _ hq1
      · exact hent _ hp1

theorem indexWF_fold_addPosting (docId : String)
    (l : List (Nat × List Char))
    {idx : List (List Char × List (String × List Nat))} (h : indexWF idx) :
    indexWF (l.foldl (fun ix pw => addPosting ix pw.2 docId pw.1) idx) := by
  induction l generalizing idx with
  | nil => exact h
  | cons pw rest ih =>
    rw [List.foldl_cons]
    exact ih (indexWF_addPosting h _ _ _)

theorem alKeys_filter_sublist {κ α : Type} (q : κ × α → Bool)
    (l : List (κ × α)) :
    List.Sublist (alKeys (l.filter q)) (alKeys l) := by
  show List.Sublist ((l.filter q).map (fun p => p.1)) (l.map (fun p => p.1))
  exact (List.filter_sublist l).map _

theorem alKeys_removeAll_sublist (docId : String)
    (idx : List (List Char × List (String × List Nat))) :
    List.Sublist (alKeys (removeAll docId idx)) (alKeys idx) := by
  have h1 := alKeys_filter_sublist (fun p => decide (p.2 ≠ []))
    (idx.map (fun p => (p.1, alErase docId p.2)))
  have h2 : alKeys (idx.map (fun p => (p.1, alErase docId p.2))) =
      alKeys idx := by
    simp [alKeys, List.map_map]
  rw [h2] at h1
  exact h1

theorem indexWF_removeAll
    {idx : List (List Char × List (String × List Nat))} (h : indexWF idx)
    (docId : String) : indexWF (removeAll docId idx) := by
  refine ⟨h.1.sublist (alKeys_removeAll_sublist docId idx), ?_⟩
  intro p hp
  obtain ⟨dm, hmem, he, hne⟩ := mem_removeAll hp
  obtain ⟨dmnd, _, dmpos⟩ := h.2 _ hmem
  refine ⟨?_, hne, ?_⟩
  · rw [he]
    exact dmnd.sublist (alKeys_filter_sublist _ _)
  · intro q hq
    rw [he] at hq
    exact dmpos _ (List.mem_of_mem_filter hq)

theorem stateWF_empty : stateWF emptyEngine := by
  refine ⟨List.nodup_nil, List.nodup_nil, ?_⟩
  intro p hp
  exact absurd hp (List.not_mem_nil p)

theorem stateWF_addDocument {st : EngineState} (h : stateWF st)
    (doc : Document) : stateWF (addDocument st doc) := by
  refine ⟨?_, ?_⟩
  · show ((alSet doc.id doc st.documents).map (fun p => p.1)).Nodup
    exact alKeys_nodup_alSet _ _ h.1
  · show indexWF ((docTokens doc).enum.foldl
      (fun ix pw => addPosting ix pw.2 doc.id pw.1) st.invertedIndex)
    exact indexWF_fold_addPosting _ _ h.2

theorem stateWF_removeDocument {st : EngineState} (h : stateWF st)
    (docId : String) : stateWF (removeDocument st docId).2 := by
  cases hg : alGet docId st.documents with
  | none =>
    rw [removeDocument, hg]
    exact h
  | some doc0 =>
    rw [removeDocument, hg]
    refine ⟨?_, indexWF_removeAll h.2 docId⟩
    show (alKeys (alErase docId st.documents)).Nodup
    exact h.1.sublist (alKeys_filter_sublist _ _)

/-! ## Preservation of the coherence invariant -/

theorem enum_map_snd {α : Type} (l : List α) :
    l.enum.map (fun pw => pw.2) = l := by
  simp

theorem engineInv_empty : engineInv emptyEngine := by
  constructor
  · intro w
    simp [emptyEngine, alGet]
  · intro w d
    simp [emptyEngine, posGet, alGet]

theorem engineInv_addDocument {st : EngineState} (doc : Document)
    (hInv : engineInv st) (hfresh : alGet doc.id st.documents = none) :
    engineInv (addDocument st doc) := by
  obtain ⟨hkeys, hpost⟩ := hInv
  constructor
  · intro w
    show w ∈ alKeys ((docTokens doc).enum.foldl
        (fun ix pw => addPosting ix pw.2 doc.id pw.1) st.invertedIndex) ↔
      ∃ d docr, alGet d (alSet doc.id doc st.documents) = some docr ∧
        w ∈ docTokens docr
    rw [mem_alKeys_fold_addPosting, enum_map_snd]
    constructor
    · intro h
      rcases h with h | h
      · obtain ⟨d, docr, hget, htok⟩ := (hkeys w).mp h
        have hne : d ≠ doc.id := by
          intro he
          rw [he, hfresh] at hget
          exact Option.noConfusion hget
        exact ⟨d, docr, by rw [alGet_alSet_ne _ _ hne]; exact hget, htok⟩
      · exact ⟨doc.id, doc, alGet_alSet_self _ _ _, h⟩
    · intro h
      obtain ⟨d, docr, hget, htok⟩ := h
      by_cases hd : d = doc.id
      · subst hd
        rw [alGet_alSet_self] at hget
        have : doc = docr := by injection hget
        exact Or.inr (this ▸ htok)
      · rw [alGet_alSet_ne _ _ hd] at hget
        exact Or.inl ((hkeys w).mpr ⟨d, docr, hget, htok⟩)
  · intro w d
    show (posGet ((docTokens doc).enum.foldl
        (fun ix pw => addPosting ix pw.2 doc.id pw.1) st.invertedIndex)
          w d).isSome = true ↔
      ∃ docr, alGet d (alSet doc.id doc st.documents) = some docr ∧
        w ∈ docTokens docr
    rw [posGet_fold_addPosting, enum_map_snd]
    constructor
    · intro h
      rcases h with h | h
      · obtain ⟨docr, hget, htok⟩ := (hpost w d).mp h
        have hne : d ≠ doc.id := by
          intro he
          rw [he, hfresh] at hget
          exact Option.noConfusion hget
        exact ⟨docr, by rw [alGet_alSet_ne _ _ hne]; exact hget, htok⟩
      · obtain ⟨hd, hw⟩ := h
        subst hd
        exact ⟨doc, alGet_alSet_self _ _ _, hw⟩
    · intro h
      obtain ⟨docr, hget, htok⟩ := h
      by_cases hd : d = doc.id
      · subst hd
        rw [alGet_alSet_self] at hget
        have : doc = docr := by injection hget
        exact Or.inr ⟨rfl, this ▸ htok⟩
      · rw [alGet_alSet_ne _ _ hd] at hget
        exact Or.inl ((hpost w d).mpr ⟨docr, hget, htok⟩)

theorem alErase_ne_nil_iff (docId : String)
    (dm : List (String × List Nat)) :
    alErase docId dm ≠ [] ↔
      ∃ d, d ≠ docId ∧ (alGet d dm).isSome = true := by
  constructor
  · intro h
    cases he : alErase docId dm with
    | nil => exact absurd he h
    | cons q rest =>
      have hq : q ∈ alErase docId dm := he ▸ List.mem_cons_self _ _
      obtain ⟨hmem, hdec⟩ := List.mem_filter.mp hq
      refine ⟨q.1, by simpa using hdec, ?_⟩
      rw [← mem_alKeys_iff_isSome]
      exact List.mem_map.mpr ⟨q, hmem, rfl⟩
  · intro h
    obtain ⟨d, hne, hsome⟩ := h
    obtain ⟨v, hv⟩ := Option.isSome_iff_exists.mp hsome
    have hmem : (d, v) ∈ alErase docId dm :=
      List.mem_filter.mpr ⟨mem_of_alGet hv, by simpa using hne⟩
    exact List.ne_nil_of_mem hmem

theorem mem_alKeys_removeAll_iff {docId : String} {w : List Char}
    {idx : List (List Char × List (String × List Nat))}
    (hnd : (alKeys idx).Nodup) :
    w ∈ alKeys (removeAll docId idx) ↔
      ∃ dm, alGet w idx = some dm ∧ alErase docId dm ≠ [] := by
  rw [mem_alKeys_iff_isSome]
  cases hw : alGet w idx with
  | none =>
    rw [alGet_removeAll_none hw]
    simp
  | some dm =>
    rw [alGet_removeAll_some hnd hw]
    by_cases h2 : alErase docId dm = []
    · rw [if_pos h2]
      simp
      exact h2
    · rw [if_neg h2]
      simp
      exact h2

theorem posGet_removeAll {docId : String}
    {idx : List (List Char × List (String × List Nat))}
    (hnd : (alKeys idx).Nodup) (w : List Char) (d : String) :
    (posGet (removeAll docId idx) w d).isSome = true ↔
      (posGet idx w d).isSome = true ∧ d ≠ docId := by
  cases hw : alGet w idx with
  | none =>
    rw [posGet_eq_none d (alGet_removeAll_none hw), posGet_eq_none d hw]
    simp
  | some dm =>
    rw [posGet_eq d hw]
    by_cases h2 : alErase docId dm = []
    · rw [posGet_eq_none d
        (by rw [alGet_removeAll_some hnd hw, if_pos h2])]
      by_cases hd : d = docId
      · subst hd
        simp
      · rw [alGet_of_alErase_eq_nil hd h2]
        simp
    · rw [posGet_eq d (by rw [alGet_removeAll_some hnd hw, if_neg h2])]
      by_cases hd : d = docId
      · subst hd
        rw [alGet_alErase_self]
        simp
      · rw [alGet_alErase_ne _ hd]
        simp [hd]

theorem engineInv_removeDocument {st : EngineState} (docId : String)
    (hInv : engineInv st) (hWF : stateWF st) :
    engineInv (removeDocument st docId).2 := by
  obtain ⟨hkeys, hpost⟩ := hInv
  cases hg : alGet docId st.documents with
  | none =>
    rw [removeDocument, hg]
    exact ⟨hkeys, hpost⟩
  | some doc0 =>
    rw [removeDocument, hg]
    constructor
    · intro w
      show w ∈ alKeys (removeAll docId st.invertedIndex) ↔
        ∃ d docr, alGet d (alErase docId st.documents) = some docr ∧
          w ∈ docTokens docr
      rw [mem_alKeys_removeAll_iff hWF.2.1]
      constructor
      · intro h
        obtain ⟨dm, hw, hne⟩ := h
        obtain ⟨d, hd, hsome⟩ := (alErase_ne_nil_iff docId dm).mp hne
        rw [← posGet_eq d hw] at hsome
        obtain ⟨docr, hget, htok⟩ := (hpost w d).mp hsome
        exact ⟨d, docr, by rw [alGet_alErase_ne _ hd]; exact hget, htok⟩
      · intro h
        obtain ⟨d, docr, hget, htok⟩ := h
        have hd : d ≠ docId := by
          intro he
          rw [he, alGet_alErase_self] at hget
          exact Option.noConfusion hget
        rw [alGet_alErase_ne _ hd] at hget
        have hsome := (hpost w d).mpr ⟨docr, hget, htok⟩
        cases hw : alGet w st.invertedIndex with
        | none =>
          rw [posGet_eq_none d hw] at hsome
          exact Bool.noConfusion hsome
        | some dm =>
          rw [posGet_eq d hw] at hsome
          exact ⟨dm, rfl, (alErase_ne_nil_iff docId dm).mpr ⟨d, hd, hsome⟩⟩
    · intro w d
      show (posGet (removeAll docId st.invertedIndex) w d).isSome = true ↔
        ∃ docr, alGet d (alErase docId st.documents) = some docr ∧
          w ∈ docTokens docr
      rw [posGet_removeAll hWF.2.1]
      constructor
      · intro h
        obtain ⟨hsome, hd⟩ := h
        obtain ⟨docr, hget, htok⟩ := (hpost w d).mp hsome
        exact ⟨docr, by rw [alGet_alErase_ne _ hd]; exact hget, htok⟩
      · intro h
        obtain ⟨docr, hget, htok⟩ := h
        have hd : d ≠ docId := by
          intro he
          rw [he, alGet_alErase_self] at hget
          exact Option.noConfusion hget
        rw [alGet_alErase_ne _ hd] at hget
        exact ⟨(hpost w d).mpr ⟨docr, hget, htok⟩, hd⟩

theorem engineInv_okRun_aux (ops : List EngineOp) :
    ∀ st, engineInv st → stateWF st → okRun st ops = true →
      engineInv (ops.foldl applyOp st) ∧ stateWF (ops.foldl applyOp st) := by
  induction ops with
  | nil => exact fun st hInv hWF _ => ⟨hInv, hWF⟩
  | cons op rest ih =>
    intro st hInv hWF hok
    cases op with
    | add doc =>
      rw [okRun, Bool.and_eq_true] at hok
      have hfresh : alGet doc.id st.documents = none :=
        Option.isNone_iff_eq_none.mp hok.1
      rw [List.foldl_cons]
      exact ih _ (engineInv_addDocument doc hInv hfresh)
        (stateWF_addDocument hWF doc) hok.2
    | remove docId =>
      rw [okRun] at hok
      rw [List.foldl_cons]
      exact ih _ (engineInv_removeDocument docId hInv hWF)
        (stateWF_removeDocument hWF docId) hok

/-- C3 (amended): after any sequence of `addDocument` / `removeDocument`
calls from a fresh engine in which every `addDocument` uses an id that is not
currently stored, a token is an index key iff some stored document's
tokenized (lowercased) content contains it, and a document id appears in a
token's posting map iff that stored document's tokenized content contains the
token. -/
theorem engineInv_of_okRun (ops : List EngineOp)
    (h : okRun emptyEngine ops = true) : engineInv (runOps ops) :=
  (engineInv_okRun_aux ops emptyEngine engineInv_empty stateWF_empty h).1

/-- Witness for C3 (amended): an add-add-remove run with distinct ids. -/
theorem engineInv_of_okRun_witness :
    okRun emptyEngine
        [EngineOp.add ⟨"d1", "a.txt", String.toList "apple sauce", "t0"⟩,
         EngineOp.add ⟨"d2", "c.txt", String.toList "apple apple banana", "t2"⟩,
         EngineOp.remove "d1"] = true ∧
      engineInv (runOps
        [EngineOp.add ⟨"d1", "a.txt", String.toList "apple sauce", "t0"⟩,
         EngineOp.add ⟨"d2", "c.txt", String.toList "apple apple banana", "t2"⟩,
         EngineOp.remove "d1"]) :=
  ⟨by decide, engineInv_of_okRun _ (by decide)⟩

/-- Counterexample to C3 as stated: adding a document and then re-adding a
different document under the same id leaves the token "apple" in the index
although no stored document contains it any more, so the invariant fails
after this operation sequence. -/
theorem engineInv_fails_after_readd :
    ¬ engineInv (runOps
        [EngineOp.add ⟨"d1", "a.txt", String.toList "apple sauce", "t0"⟩,
         EngineOp.add ⟨"d1", "b.txt", String.toList "banana split", "t1"⟩]) := by
  intro h
  have h1 := (h.1 (String.toList "apple")).mp (by decide)
  obtain ⟨d, docr, hget, htok⟩ := h1
  have hdocs : (runOps
      [EngineOp.add ⟨"d1", "a.txt", String.toList "apple sauce", "t0"⟩,
       EngineOp.add ⟨"d1", "b.txt", String.toList "banana split", "t1"⟩]).documents =
      [("d1", ⟨"d1", "b.txt", String.toList "banana split", "t1"⟩)] := by
    decide
  rw [hdocs, alGet_singleton] at hget
  by_cases hd : "d1" = d
  · rw [if_pos hd] at hget
    have hdocr : (⟨"d1", "b.txt", String.toList "banana split", "t1"⟩ :
        Document) = docr := by injection hget
    rw [← hdocr] at htok
    exact absurd htok (by decide)
  · rw [if_neg hd] at hget
    exact Option.noConfusion hget

/-! ## The raw score accumulated by search (C1) -/

theorem scoreOf_alSet_self (d : String) (sd : ScoreData)
    (sc : List (String × ScoreData)) :
    scoreOf d (alSet d sd sc) = sd.score := by
  rw [scoreOf, alGet_alSet_self]

theorem scoreOf_alSet_ne {d1 d : String} (sd : ScoreData)
    (sc : List (String × ScoreData)) (h : d1 ≠ d) :
    scoreOf d1 (alSet d sd sc) = scoreOf d1 sc := by
  rw [scoreOf, alGet_alSet_ne _ _ h, scoreOf]

theorem scoreOf_docMap_fold_notmem (w : List Char) {d : String}
    (dm : List (String × List Nat)) (sc : List (String × ScoreData))
    (h : d ∉ alKeys dm) :
    scoreOf d (dm.foldl
      (fun sc1 p =>
        alSet p.1 (scoreWordDoc ((alGet p.1 sc1).getD freshScore) w
          p.2.length) sc1) sc) = scoreOf d sc := by
  induction dm generalizing sc with
  | nil => rfl
  | cons q rest ih =>
    obtain ⟨d0, ps0⟩ := q
    rw [alKeys_cons, List.mem_cons, not_or] at h
    rw [List.foldl_cons, ih _ h.2, scoreOf_alSet_ne _ _ h.1]

theorem scoreOf_docMap_fold (w : List Char) (d : String)
    (dm : List (String × List Nat)) (sc : List (String × ScoreData))
    (hnd : (alKeys dm).Nodup) :
    scoreOf d (dm.foldl
      (fun sc1 p =>
        alSet p.1 (scoreWordDoc ((alGet p.1 sc1).getD freshScore) w
          p.2.length) sc1) sc) =
      scoreOf d sc +
        (match alGet d dm with
          | none => 0
          | some ps => ps.length) := by
  induction dm generalizing sc with
  | nil => rfl
  | cons q rest ih =>
    obtain ⟨d0, ps0⟩ := q
    rw [alKeys_cons, List.nodup_cons] at hnd
    rw [List.foldl_cons]
    by_cases hd : d0 = d
    · subst hd
      rw [scoreOf_docMap_fold_notmem _ _ _ hnd.1]
      rw [scoreOf_alSet_self, alGet, if_pos rfl]
      cases hg : alGet d0 sc with
      | none =>
        rw [scoreWordDoc]
        rw [scoreOf, hg]
        simp [freshScore]
      | some sd =>
        rw [scoreWordDoc]
        rw [scoreOf, hg]
        simp
    · rw [ih _ hnd.2, scoreOf_alSet_ne _ _ (fun he => hd he.symm),
        alGet, if_neg hd]

theorem scoreOf_scoreWord (sc : List (String × ScoreData))
    {idx : List (List Char × List (String × List Nat))} (w : List Char)
    (d : String) (hwf : ∀ p ∈ idx, (alKeys p.2).Nodup) :
    scoreOf d (scoreWord sc idx w) = scoreOf d sc + postLen idx w d := by
  cases hw : alGet w idx with
  | none =>
    rw [scoreWord, hw, postLen, posGet_eq_none d hw]
    simp
  | some dm =>
    rw [scoreWord, hw, postLen, posGet_eq d hw,
      scoreOf_docMap_fold _ _ _ _ (hwf _ (mem_of_alGet hw))]

theorem scoreOf_fold_scoreWord (l : List (List Char))
    {st : EngineState} (sc : List (String × ScoreData)) (d : String)
    (hwf : ∀ p ∈ st.invertedIndex, (alKeys p.2).Nodup) :
    scoreOf d (l.foldl (fun sc1 w => scoreWord sc1 st.invertedIndex w) sc) =
      scoreOf d sc +
        (l.map (fun w => postLen st.invertedIndex w d)).sum := by
  induction l generalizing sc with
  | nil => simp
  | cons w rest ih =>
    rw [List.foldl_cons, ih _, scoreOf_scoreWord _ _ _ hwf,
      List.map_cons, List.sum_cons]
    omega

/-- C1 (amended): the raw score `search` accumulates for a document equals
the sum, over the occurrences of words in the tokenized query sequence (a
word occurring twice in the query contributes its posting count twice, once
per occurrence), of the posting-list length of that (word, document) pair —
zero for words missing from the index or posting maps missing the document —
and this sum is not normalized by the document's length. -/
theorem rawScore_eq_sum_postings (st : EngineState)
    (queryWords : List (List Char)) (d : String)
    (hwf : ∀ p ∈ st.invertedIndex, (alKeys p.2).Nodup) :
    scoreOf d (computeScores st queryWords) =
      (queryWords.map (fun w => postLen st.invertedIndex w d)).sum := by
  rw [computeScores, scoreOf_fold_scoreWord _ _ _ hwf]
  rw [show scoreOf d [] = 0 from rfl, Nat.zero_add]

/-- Witness for C1 (amended) on a concrete two-word query against a
one-document engine. -/
theorem rawScore_eq_sum_postings_witness :
    scoreOf "d2"
        (computeScores
          (addDocument emptyEngine
            ⟨"d2", "c.txt", String.toList "apple apple banana", "t2"⟩)
          (tokenize (lowerStr (String.toList "apple banana")))) =
      ((tokenize (lowerStr (String.toList "apple banana"))).map
        (fun w =>
          postLen
            (addDocument emptyEngine
              ⟨"d2", "c.txt", String.toList "apple apple banana", "t2"⟩).invertedIndex
            w "d2")).sum :=
  rawScore_eq_sum_postings _ _ _ (by decide)

/-- Counterexample to C1 as stated: for the duplicated query "apple apple"
against a document containing "apple" twice, the accumulated raw score is 4
(each query occurrence adds the posting count), while the sum over the
distinct query words of the claim is 2. -/
theorem rawScore_counterexample :
    scoreOf "d2"
        (computeScores
          (addDocument emptyEngine
            ⟨"d2", "c.txt", String.toList "apple apple banana", "t2"⟩)
          (tokenize (lowerStr (String.toList "apple apple")))) = 4 ∧
      ((tokenize (lowerStr (String.toList "apple apple"))).dedup.map
        (fun w =>
          postLen
            (addDocument emptyEngine
              ⟨"d2", "c.txt", String.toList "apple apple banana", "t2"⟩).invertedIndex
            w "d2")).sum = 2 := by
  decide

/-! ## Coverage boost of the final score (C2) -/

theorem setAdd_nodup {α : Type} [DecidableEq α] (x : α) {l : List α}
    (h : l.Nodup) : (setAdd x l).Nodup := by
  rw [setAdd]
  by_cases hm : x ∈ l
  · rw [if_pos hm]
    exact h
  · rw [if_neg hm]
    exact List.Nodup.append h (List.nodup_singleton x)
      (fun a ha hax => hm ((List.mem_singleton.mp hax) ▸ ha))

theorem mem_setAdd {α : Type} [DecidableEq α] {t x : α} {l : List α}
    (h : t ∈ setAdd x l) : t ∈ l ∨ t = x := by
  rw [setAdd] at h
  by_cases hm : x ∈ l
  · rw [if_pos hm] at h
    exact Or.inl h
  · rw [if_neg hm] at h
    rcases List.mem_append.mp h with h1 | h1
    · exact Or.inl h1
    · exact Or.inr (List.mem_singleton.mp h1)

/-- Invariant carried through the score accumulation: every entry's matched
set is duplicate-free and contained in the processed query words. -/
def mtInv (sc : List (String × ScoreData)) (bound : List (List Char)) : Prop :=
  ∀ p ∈ sc, p.2.matchedTerms.Nodup ∧ ∀ t ∈ p.2.matchedTerms, t ∈ bound

theorem mtInv_docMap_fold {w : List Char} {bound : List (List Char)}
    (dm : List (String × List Nat)) {sc : List (String × ScoreData)}
    (hsc : mtInv sc bound) (hw : w ∈ bound) :
    mtInv (dm.foldl
      (fun sc1 p =>
        alSet p.1 (scoreWordDoc ((alGet p.1 sc1).getD freshScore) w
          p.2.length) sc1) sc) bound := by
  induction dm generalizing sc with
  | nil => exact hsc
  | cons q rest ih =>
    rw [List.foldl_cons]
    refine ih ?_
    intro p hp
    rcases mem_alSet hp with hp1 | hp1
    · subst hp1
      simp only [scoreWordDoc]
      cases hg : alGet q.1 sc with
      | none =>
        refine ⟨setAdd_nodup _ (by simp [freshScore]), ?_⟩
        intro t ht
        rcases mem_setAdd ht with ht1 | ht1
        · exact absurd ht1 (by simp [freshScore])
        · exact ht1 ▸ hw
      | some sd =>
        obtain ⟨hnd, hsub⟩ := hsc _ (mem_of_alGet hg)
        refine ⟨setAdd_nodup _ hnd, ?_⟩
        intro t ht
        rcases mem_setAdd ht with ht1 | ht1
        · exact hsub _ ht1
        · exact ht1 ▸ hw
    · exact hsc _ hp1

theorem mtInv_scoreWord {idx : List (List Char × List (String × List Nat))}
    {w : List Char} {bound : List (List Char)}
    {sc : List (String × ScoreData)} (hsc : mtInv sc bound) (hw : w ∈ bound) :
    mtInv (scoreWord sc idx w) bound := by
  cases hg : alGet w idx with
  | none =>
    rw [scoreWord, hg]
    exact hsc
  | some dm =>
    rw [scoreWord, hg]
    exact mtInv_docMap_fold dm hsc hw

theorem mtInv_computeScores (st : EngineState)
    (queryWords : List (List Char)) :
    mtInv (computeScores st queryWords) queryWords := by
  have aux : ∀ (l : List (List Char)) (sc : List (String × ScoreData))
      (bound : List (List Char)), (∀ w ∈ l, w ∈ bound) → mtInv sc bound →
      mtInv (l.foldl (fun sc1 w => scoreWord sc1 st.invertedIndex w) sc)
        bound := by
    intro l
    induction l with
    | nil => exact fun sc bound _ hsc => hsc
    | cons w rest ih =>
      intro sc bound hl hsc
      rw [List.foldl_cons]
      exact ih _ _ (fun w1 hw1 => hl _ (List.mem_cons_of_mem _ hw1))
        (mtInv_scoreWord hsc (hl _ (List.mem_cons_self _ _)))
  exact aux queryWords [] queryWords (fun _ h => h)
    (fun p hp => absurd hp (List.not_mem_nil p))

/-- Invariant carried through the score accumulation: every entry's raw score
is at least 1 (posting lists are nonempty). -/
def spInv (sc : List (String × ScoreData)) : Prop :=
  ∀ p ∈ sc, 1 ≤ p.2.score

theorem spInv_docMap_fold {w : List Char}
    {dm : List (String × List Nat)} (hdm : ∀ q ∈ dm, q.2 ≠ [])
    {sc : List (String × ScoreData)} (hsc : spInv sc) :
    spInv (dm.foldl
      (fun sc1 p =>
        alSet p.1 (scoreWordDoc ((alGet p.1 sc1).getD freshScore) w
          p.2.length) sc1) sc) := by
  induction dm generalizing sc with
  | nil => exact hsc
  | cons q rest ih
 =>
    rw [List.foldl_cons]
    refine ih (fun q1 hq1 => hdm _ (List.mem_cons_of_mem _ hq1)) ?_
    intro p hp
    rcases mem_alSet hp with hp1 | hp1
    · subst hp1
      simp only [scoreWordDoc]
      have hlen : 1 ≤ q.2.length := by
        have := hdm _ (List.mem_cons_self _ _)
        cases hq : q.2 with
        | nil => exact absurd hq this
        | cons a rest2 => simp [hq]
      cases hg : alGet q.1 sc with
      | none =>
        show 1 ≤ freshScore.score + q.2.length
        simp [freshScore]
        omega
      | some sd =>
        show 1 ≤ sd.score + q.2.length
        omega
    · exact hsc _ hp1

theorem spInv_computeScores (st : EngineState)
    (queryWords : List (List Char))
    (hpos : ∀ p ∈ st.invertedIndex, ∀ q ∈ p.2, q.2 ≠ []) :
    spInv (computeScores st queryWords) := by
  have aux : ∀ (l : List (List Char)) (sc : List (String × ScoreData)),
      spInv sc →
      spInv (l.foldl (fun sc1 w => scoreWord sc1 st.invertedIndex w) sc) := by
    intro l
    induction l with
    | nil => exact fun sc hsc => hsc
    | cons w rest ih =>
      intro sc hsc
      rw [List.foldl_cons]
      refine ih _ ?_
      cases hg : alGet w st.invertedIndex with
      | none =>
        rw [scoreWord, hg]
        exact hsc
      | some dm =>
        rw [scoreWord, hg]
        exact spInv_docMap_fold (hpos _ (mem_of_alGet hg)) hsc
  exact aux queryWords [] (fun p hp => absurd hp (List.not_mem_nil p))

theorem computeScores_ne_of_mem {st : EngineState}
    {queryWords : List (List Char)} {p : String × ScoreData}
    (h : p ∈ computeScores st queryWords) : 0 < queryWords.length := by
  cases queryWords with
  | nil => exact absurd h (List.not_mem_nil p)
  | cons w rest => simp

theorem insertDesc_perm {α β : Type} [LinearOrder β] (key : α → β) (x : α)
    (l : List α) : List.Perm (insertDesc key x l) (x :: l) := by
  induction l with
  | nil => exact List.Perm.refl _
  | cons y ys ih =>
    rw [insertDesc]
    by_cases h : key y < key x
    · rw [if_pos h]
    · rw [if_neg h]
      exact (ih.cons y).trans (List.Perm.swap x y ys)

theorem sortByDesc_perm {α β : Type} [LinearOrder β] (key : α → β)
    (l : List α) : List.Perm (sortByDesc key l) l := by
  have aux : ∀ (l1 : List α) (acc : List α),
      List.Perm (l1.foldl (fun acc1 x => insertDesc key x acc1) acc)
        (l1 ++ acc) := by
    intro l1
    induction l1 with
    | nil => exact fun acc => List.Perm.refl _
    | cons x rest ih =>
      intro acc
      rw [List.foldl_cons]
      refine (ih _).trans ?_
      refine ((List.Perm.append_left rest (insertDesc_perm key x acc)).trans
        List.perm_middle).trans ?_
      rw [List.cons_append]
  have h := aux l []
  rw [List.append_nil] at h
  exact h

theorem mem_sortByDesc {α β : Type} [LinearOrder β] {key : α → β} {a : α}
    {l : List α} (h : a ∈ sortByDesc key l) : a ∈ l :=
  (sortByDesc_perm key l).mem_iff.mp h

theorem buildResult_score (st : EngineState) (queryWords : List (List Char))
    (p : String × ScoreData) :
    (buildResult st queryWords p).score =
      (p.2.score : ℚ) *
        (1 + (p.2.matchedTerms.length : ℚ) / (queryWords.length : ℚ)) := rfl

theorem search_mem_buildResult {st : EngineState} {q : List Char}
    {lim : Nat} {r : SearchResult} (h : r ∈ search st q lim) :
    ∃ p, p ∈ computeScores st (tokenize (lowerStr q)) ∧
      r = buildResult st (tokenize (lowerStr q)) p := by
  rw [search] at h
  by_cases h0 : (trim q).length = 0
  · rw [if_pos h0] at h
    exact absurd h (List.not_mem_nil r)
  · rw [if_neg h0] at h
    by_cases h1 : (tokenize (lowerStr q)).length = 0
    · simp only [h1, if_pos] at h
      exact absurd h (List.not_mem_nil r)
    · simp only [h1, if_neg, if_false] at h
      have h2 := mem_sortByDesc (List.mem_of_mem_take h)
      obtain ⟨p, hp, he⟩ := List.mem_map.mp h2
      exact ⟨p, hp, he.symm⟩

theorem length_le_dedup_of_nodup_subset {α : Type} [DecidableEq α]
    {l bound : List α} (hnd : l.Nodup) (hsub : ∀ t ∈ l, t ∈ bound) :
    l.length ≤ bound.dedup.length := by
  have h1 : l.toFinset ⊆ bound.toFinset := by
    intro a ha
    rw [List.mem_toFinset] at ha ⊢
    exact hsub _ ha
  have h2 := Finset.card_le_card h1
  rw [List.toFinset_card_of_nodup hnd] at h2
  rw [List.card_toFinset] at h2
  exact h2

theorem dedup_length_lt_of_not_nodup {α : Type} [DecidableEq α]
    {l : List α} (h : ¬ l.Nodup) : l.dedup.length < l.length := by
  rcases Nat.lt_or_ge l.dedup.length l.length with h1 | h1
  · exact h1
  · exfalso
    have hsub := List.dedup_sublist l
    have hle := hsub.length_le
    have heq : l.dedup.length = l.length := le_antisymm hle h1
    have := hsub.eq_of_length heq
    exact h (List.dedup_eq_self.mp this)

/-- C2: every result of `search` carries
`finalScore = score * (1 + termCoverage)` with
`termCoverage = matchedTerms.size / queryWords.length` (the tokenized query
length with duplicates retained); with equal raw scores, a document matching
strictly more distinct query terms gets a strictly larger final score (raw
scores of scored documents are at least 1); and when the tokenized query has
a repeated word, `termCoverage` is strictly below 1 for every scored
document. -/
theorem finalScore_coverage_boost (st : EngineState) (q : List Char)
    (lim : Nat) (queryWords : List (List Char))
    (hpos : ∀ p ∈ st.invertedIndex, ∀ pq ∈ p.2, pq.2 ≠ [])
    (hq : queryWords = tokenize (lowerStr q)) :
    (∀ r ∈ search st q lim, ∃ p, p ∈ computeScores st queryWords ∧
        r = buildResult st queryWords p ∧
        r.score = (p.2.score : ℚ) *
          (1 + (p.2.matchedTerms.length : ℚ) / (queryWords.length : ℚ))) ∧
    (∀ p1 ∈ computeScores st queryWords, ∀ p2 ∈ computeScores st queryWords,
        p1.2.score = p2.2.score →
        p1.2.matchedTerms.length < p2.2.matchedTerms.length →
        (buildResult st queryWords p1).score <
          (buildResult st queryWords p2).score) ∧
    (¬ queryWords.Nodup →
      ∀ p ∈ computeScores st queryWords,
        (p.2.matchedTerms.length : ℚ) / (queryWords.length : ℚ) < 1) := by
  subst hq
  refine ⟨?_, ?_, ?_⟩
  · intro r hr
    obtain ⟨p, hp, he⟩ := search_mem_buildResult hr
    exact ⟨p, hp, he, by rw [he, buildResult_score]⟩
  · intro p1 hp1 p2 hp2 hs hm
    rw [buildResult_score, buildResult_score, ← hs]
    have hscore : 1 ≤ p1.2.score :=
      spInv_computeScores _ _ hpos _ hp1
    have hlen : 0 < (tokenize (lowerStr q)).length :=
      computeScores_ne_of_mem hp1
    have hlq : (0 : ℚ) < ((tokenize (lowerStr q)).length : ℚ) := by
      exact_mod_cast hlen
    have hsq : (0 : ℚ) < (p1.2.score : ℚ) := by
      exact_mod_cast Nat.lt_of_lt_of_le Nat.zero_lt_one hscore
    refine mul_lt_mul_of_pos_left ?_ hsq
    refine add_lt_add_left ?_ 1
    refine div_lt_div_of_pos_right ?_ hlq
    exact_mod_cast hm
  · intro hdup p hp
    obtain ⟨hnd, hsub⟩ := mtInv_computeScores st (tokenize (lowerStr q)) _ hp
    have h1 : p.2.matchedTerms.length <
        (tokenize (lowerStr q)).length :=
      Nat.lt_of_le_of_lt (length_le_dedup_of_nodup_subset hnd hsub)
        (dedup_length_lt_of_not_nodup hdup)
    have hlq : (0 : ℚ) < ((tokenize (lowerStr q)).length : ℚ) := by
      have := computeScores_ne_of_mem hp
      exact_mod_cast this
    rw [div_lt_one hlq]
    exact_mod_cast h1

/-- Witness for C2 on the duplicated query "apple apple": the coverage of
the one scored document (one matched term over two query tokens) is strictly
below 1. -/
theorem finalScore_coverage_boost_witness :
    (((⟨4, [String.toList "apple"], [(String.toList "apple", 2)]⟩ :
        ScoreData).matchedTerms.length : ℚ) /
      ((tokenize (lowerStr (String.toList "apple apple"))).length : ℚ)) < 1 :=
  (finalScore_coverage_boost
      (addDocument emptyEngine
        ⟨"d2", "c.txt", String.toList "apple apple banana", "t2"⟩)
      (String.toList "apple apple") 3 _ (by decide) rfl).2.2 (by decide)
    ("d2", ⟨4, [String.toList "apple"], [(String.toList "apple", 2)]⟩)
    (by decide)

/-! ## Idempotence of tokenization (C6) -/

theorem isWs_false_of_isAlnum {c : Char} (h : isAlnum c = true) :
    isWs c = false := by
  simp [isAlnum] at h
  simp [isWs]
  omega

theorem splitRuns_ne_nil (p : Char → Bool) (s : List Char) :
    splitRuns p s ≠ [] ∧ skipRun p s ≠ [] := by
  induction s with
  | nil => exact ⟨by simp [splitRuns], by simp [skipRun]⟩
  | cons c rest ih =>
    constructor
    · rw [splitRuns]
      by_cases h : p c
      · simp [h]
      · rw [if_neg h]
        cases heq : splitRuns p rest with
        | nil => exact absurd heq ih.1
        | cons f fs => simp
    · rw [skipRun]
      by_cases h : p c
      · rw [if_pos h]
        exact ih.2
      · rw [if_neg h]
        cases heq : splitRuns p rest with
        | nil => exact absurd heq ih.1
        | cons f fs => simp

theorem splitRuns_chars (p : Char → Bool) (s : List Char) :
    (∀ f ∈ splitRuns p s, ∀ c ∈ f, c ∈ s ∧ p c = false) ∧
    (∀ f ∈ skipRun p s, ∀ c ∈ f, c ∈ s ∧ p c = false) := by
  induction s with
  | nil =>
    constructor
    · intro f hf c hc
      rw [show splitRuns p [] = [[]] from rfl] at hf
      rw [List.mem_singleton.mp hf] at hc
      exact absurd hc (List.not_mem_nil c)
    · intro f hf c hc
      rw [show skipRun p [] = [[]] from rfl] at hf
      rw [List.mem_singleton.mp hf] at hc
      exact absurd hc (List.not_mem_nil c)
  | cons c0 rest ih =>
    have stepNonsep : ∀ f ∈ (splitRuns p rest).modifyHead (fun f => c0 :: f),
        p c0 = false → ∀ c ∈ f, c ∈ c0 :: rest ∧ p c = false := by
      intro f hf hc0 c hc
      cases heq : splitRuns p rest with
      | nil => exact absurd heq (splitRuns_ne_nil p rest).1
      | cons f0 fs =>
        rw [heq] at hf
        simp only [List.modifyHead] at hf
        rcases List.mem_cons.mp hf with hf1 | hf1
        · subst hf1
          rcases List.mem_cons.mp hc with hc1 | hc1
          · exact ⟨hc1 ▸ List.mem_cons_self _ _, hc1 ▸ hc0⟩
          · have := ih.1 f0 (heq ▸ List.mem_cons_self _ _) c hc1
            exact ⟨List.mem_cons_of_mem _ this.1, this.2⟩
        · have := ih.1 f (heq ▸ List.mem_cons_of_mem _ hf1) c hc
          exact ⟨List.mem_cons_of_mem _ this.1, this.2⟩
    constructor
    · intro f hf c hc
      rw [splitRuns] at hf
      by_cases h : p c0
      · rw [if_pos h] at hf
        rcases List.mem_cons.mp hf with hf1 | hf1
        · rw [hf1] at hc
          exact absurd hc (List.not_mem_nil c)
        · have := ih.2 f hf1 c hc
          exact ⟨List.mem_cons_of_mem _ this.1, this.2⟩
      · rw [if_neg h] at hf
        exact stepNonsep f hf (Bool.not_eq_true _ ▸ (by simpa using h)) c hc
    · intro f hf c hc
      rw [skipRun] at hf
      by_cases h : p c0
      · rw [if_pos h] at hf
        have := ih.2 f hf c hc
        exact ⟨List.mem_cons_of_mem _ this.1, this.2⟩
      · rw [if_neg h] at hf
        exact stepNonsep f hf (by simpa using h) c hc

theorem mem_replaceSpecial {s : List Char} {c : Char}
    (h : c ∈ replaceSpecial s) : isAlnum c = true ∨ isWs c = true := by
  rw [replaceSpecial] at h
  obtain ⟨c0, _, he⟩ := List.mem_map.mp h
  by_cases h1 : isAlnum c0 || isWs c0
  · rw [if_pos h1] at he
    subst he
    simpa using h1
  · rw [if_neg h1] at he
    subst he
    right
    rfl

theorem dropWhile_eq_self_of_none {p : Char → Bool} {l : List Char}
    (h : ∀ c ∈ l, p c = false) : l.dropWhile p = l := by
  cases l with
  | nil => rfl
  | cons c rest =>
    rw [List.dropWhile_cons, if_neg (by rw [h c (List.mem_cons_self _ _)]; simp)]

theorem trim_eq_self_of_no_ws {l : List Char}
    (h : ∀ c ∈ l, isWs c = false) : trim l = l := by
  rw [trim, dropWhile_eq_self_of_none h,
    dropWhile_eq_self_of_none (fun c hc => h c (List.mem_reverse.mp hc)),
    List.reverse_reverse]

/-- Every token produced by `tokenize` has more than two characters, all of
them ASCII alphanumeric (hence no whitespace). -/
theorem tokenize_token_props {s : List Char} {t : List Char}
    (h : t ∈ tokenize s) :
    2 < t.length ∧ ∀ c ∈ t, isAlnum c = true := by
  rw [tokenize] at h
  obtain ⟨hmem, hpos⟩ := List.mem_filter.mp h
  obtain ⟨f, hf, he⟩ := List.mem_map.mp hmem
  obtain ⟨hfs, hflen⟩ := List.mem_filter.mp hf
  have hchars : ∀ c ∈ f, isAlnum c = true := by
    intro c hc
    have h1 := (splitRuns_chars isWs (replaceSpecial s)).1 f hfs c hc
    rcases mem_replaceSpecial h1.1 with h2 | h2
    · exact h2
    · rw [h1.2] at h2
      exact Bool.noConfusion h2
  have hnows : ∀ c ∈ f, isWs c = false :=
    fun c hc => isWs_false_of_isAlnum (hchars c hc)
  have htf : t = f := by rw [← he, trim_eq_self_of_no_ws hnows]
  subst htf
  exact ⟨by simpa using hflen, hchars⟩

theorem modifyHead_modifyHead {α : Type} (f g : α → α) (l : List α) :
    List.modifyHead f (List.modifyHead g l) =
      List.modifyHead (fun x => f (g x)) l := by
  cases l <;> simp

theorem splitRuns_append_field {p : Char → Bool} {t : List Char}
    (h : ∀ c ∈ t, p c = false) (r : List Char) :
    splitRuns p (t ++ r) = (splitRuns p r).modifyHead (fun f => t ++ f) := by
  induction t with
  | nil =>
    cases heq : splitRuns p r with
    | nil => exact absurd heq (splitRuns_ne_nil p r).1
    | cons f fs => simp [heq]
  | cons c t1 ih =>
    rw [List.cons_append, splitRuns,
      if_neg (by rw [h c (List.mem_cons_self _ _)]; simp),
      ih (fun c1 hc1 => h c1 (List.mem_cons_of_mem _ hc1)),
      modifyHead_modifyHead]
    rfl

theorem skipRun_eq_splitRuns_head_not {p : Char → Bool} {c : Char}
    {r : List Char} (h : p c = false) :
    skipRun p (c :: r) = splitRuns p (c :: r) := by
  rw [skipRun, splitRuns, if_neg (by simp [h]), if_neg (by simp [h])]

theorem splitRuns_joinTokens {p : Char → Bool} :
    ∀ ts : List (List Char), ts ≠ [] → p ' ' = true →
      (∀ t ∈ ts, t ≠ [] ∧ ∀ c ∈ t, p c = false) →
      splitRuns p (joinTokens ts) = ts := by
  intro ts
  induction ts with
  | nil => exact fun h _ _ => absurd rfl h
  | cons t ts1 ih =>
    intro _ hsp hts
    obtain ⟨htne, htch⟩ := hts t (List.mem_cons_self _ _)
    cases ts1 with
    | nil =>
      rw [show joinTokens [t] = t from rfl]
      rw [show (t : List Char) = t ++ [] by simp,
        splitRuns_append_field htch]
      rw [show splitRuns p [] = [[]] from rfl]
      simp
    | cons t1 ts2 =>
      rw [show joinTokens (t :: t1 :: ts2) = t ++ ' ' :: joinTokens (t1 :: ts2)
        from rfl]
      rw [splitRuns_append_field htch]
      rw [show splitRuns p (' ' :: joinTokens (t1 :: ts2)) =
          [] :: skipRun p (joinTokens (t1 :: ts2)) from by
        rw [splitRuns, if_pos hsp]]
      simp only [List.modifyHead]
      obtain ⟨ht1ne, ht1ch⟩ := hts t1 (List.mem_cons_of_mem _ (List.mem_cons_self _ _))
      have hhead : ∃ c r, joinTokens (t1 :: ts2) = c :: r ∧ p c = false := by
        cases ts2 with
        | nil =>
          cases t1 with
          | nil => exact absurd rfl ht1ne
          | cons c r =>
            exact ⟨c, r, rfl, ht1ch c (List.mem_cons_self _ _)⟩
        | cons t2 ts3 =>
          cases t1 with
          | nil => exact absurd rfl ht1ne
          | cons c r =>
            exact ⟨c, r ++ ' ' :: joinTokens (t2 :: ts3), rfl,
              ht1ch c (List.mem_cons_self _ _)⟩
      obtain ⟨c, r, hjoin, hc⟩ := hhead
      rw [hjoin, skipRun_eq_splitRuns_head_not hc, ← hjoin]
      rw [ih (by simp) hsp
        (fun t2 ht2 => hts t2 (List.mem_cons_of_mem _ ht2))]
      simp

theorem replaceSpecial_eq_self {s : List Char}
    (h : ∀ c ∈ s, isAlnum c = true ∨ isWs c = true) :
    replaceSpecial s = s := by
  induction s with
  | nil => rfl
  | cons c rest ih =>
    rw [replaceSpecial, List.map_cons]
    rw [if_pos (by rcases h c (List.mem_cons_self _ _) with h1 | h1 <;>
      simp [h1])]
    have := ih (fun c1 hc1 => h c1 (List.mem_cons_of_mem _ hc1))
    rw [replaceSpecial] at this
    rw [this]

theorem filter_eq_self_of_all {α : Type} {p : α → Bool} {l : List α}
    (h : ∀ x ∈ l, p x = true) : l.filter p = l :=
  List.filter_eq_self.mpr h

/-- C6: tokenization is idempotent on already-tokenized text — joining the
tokens of `tokenize s` with single spaces and tokenizing again yields exactly
the token sequence of `tokenize s`, for every string. -/
theorem tokenize_idempotent (s : List Char) :
    tokenize (joinTokens (tokenize s)) = tokenize s := by
  cases hts : tokenize s with
  | nil => rfl
  | cons t0 rest =>
    have hprops : ∀ t ∈ tokenize s, 2 < t.length ∧ ∀ c ∈ t, isAlnum c = true :=
      fun t ht => tokenize_token_props ht
    rw [← hts]
    have hchars : ∀ c ∈ joinTokens (tokenize s),
        isAlnum c = true ∨ isWs c = true := by
      have aux : ∀ ts : List (List Char),
          (∀ t ∈ ts, ∀ c ∈ t, isAlnum c = true) →
          ∀ c ∈ joinTokens ts, isAlnum c = true ∨ isWs c = true := by
        intro ts
        induction ts with
        | nil => intro _ c hc; exact absurd hc (List.not_mem_nil c)
        | cons t ts1 ih =>
          intro hts c hc
          cases ts1 with
          | nil =>
            exact Or.inl (hts t (List.mem_cons_self _ _) c hc)
          | cons t1 ts2 =>
            rw [show joinTokens (t :: t1 :: ts2) =
              t ++ ' ' :: joinTokens (t1 :: ts2) from rfl] at hc
            rcases List.mem_append.mp hc with hc1 | hc1
            · exact Or.inl (hts t (List.mem_cons_self _ _) c hc1)
            · rcases List.mem_cons.mp hc1 with hc2 | hc2
              · subst hc2
                right
                rfl
              · exact ih (fun t2 ht2 => hts t2 (List.mem_cons_of_mem _ ht2))
                  c hc2
      exact aux _ (fun t ht => (hprops t ht).2)
    rw [tokenize, replaceSpecial_eq_self hchars]
    rw [splitRuns_joinTokens (tokenize s) (by rw [hts]; simp) (by decide)
      (fun t ht => ⟨by
        have := (hprops t ht).1
        intro hn
        rw [hn] at this
        simp at this,
        fun c hc => isWs_false_of_isAlnum ((hprops t ht).2 c hc)⟩)]
    have h1 : List.filter (fun w => decide (2 < w.length)) (tokenize s) =
        tokenize s :=
      filter_eq_self_of_all (fun t ht => by simpa using (hprops t ht).1)
    rw [h1]
    have h2 : List.map trim (tokenize s) =
        List.map (fun t => t) (tokenize s) :=
      List.map_congr_left (fun t ht => trim_eq_self_of_no_ws
        (fun c hc => isWs_false_of_isAlnum ((hprops t ht).2 c hc)))
    rw [h2, show List.map (fun t : List Char => t) (tokenize s) = tokenize s
      from by simp]
    exact filter_eq_self_of_all (fun t ht => by
      have := (hprops t ht).1
      simp
      omega)

/-! ## Sentence match counts in snippet extraction (C8) -/

theorem list_count_eq_filter_length {α : Type} [BEq α] [LawfulBEq α]
    [DecidableEq α] (a : α) (l : List α) :
    l.count a = (l.filter (fun x => decide (x = a))).length := by
  induction l with
  | nil => rfl
  | cons x xs ih =>
    rw [List.count_cons, List.filter_cons]
    by_cases h : x = a
    · subst h
      simp [ih]
    · have hb : (x == a) = false := by
        simp [h]
      simp [h, hb, ih]

theorem length_filter_eq_sum_counts {α : Type} [DecidableEq α]
    (l : List α) (p : α → Bool) :
    (l.filter p).length = ∑ a in l.toFinset, if p a = true then l.count a else 0 := by
  have h1 : (l.filter p).length = (l.filter p : Multiset α).card := by simp
  rw [h1]
  have h2 : (l.filter p : Multiset α) =
      Multiset.filter (fun a => p a = true) (l : Multiset α) := by
    simp [Multiset.filter_coe]
  rw [h2, ← Multiset.toFinset_sum_count_eq]
  rw [show (Multiset.filter (fun a => p a = true) (l : Multiset α)).toFinset
      = (l : Multiset α).toFinset.filter (fun a => p a = true) from by
    simp [Multiset.toFinset_filter]]
  rw [Finset.sum_filter]
  refine Finset.sum_congr (by simp) ?_
  intro x hx
  by_cases hp : p x = true
  · simp [hp, Multiset.count_filter]
  · simp [hp, Multiset.count_filter]

/-- C8 (amended): the match count `extractSnippets` attaches to a sentence —
the value `snippetLoop` stores with each candidate snippet and compares to
zero for candidacy — counts the elements of the `queryWords` sequence (with
multiplicity, not the distinct words): every distinct query word occurring in
the lowercased sentence as a substring contributes once per occurrence it has
in the tokenized query. -/
theorem matchCount_counts_multiplicity (queryWords : List (List Char))
    (sentence : List Char) :
    matchCount queryWords sentence =
      ∑ w in queryWords.toFinset,
        if w <:+: lowerStr sentence then queryWords.count w else 0 := by
  rw [matchCount, length_filter_eq_sum_counts]
  refine Finset.sum_congr rfl ?_
  intro w hw
  by_cases hp : w <:+: lowerStr sentence
  · rw [if_pos (by simpa using hp), if_pos hp]
    exact (@list_count_eq_filter_length (List Char) instBEqOfDecidableEq
      inferInstance inferInstance w queryWords).trans
      (list_count_eq_filter_length w queryWords).symm
  · rw [if_neg (by simpa using hp), if_neg hp]

/-- Counterexample to C8 as stated: for the duplicated tokenized query
"apple apple", a matching sentence's candidate snippet carries match count 2,
while the number of distinct query words occurring in it is 1. -/
theorem matchCount_counterexample :
    matchCount (tokenize (lowerStr (String.toList "apple apple")))
        (String.toList "We love apple pie today") = 2 ∧
      ((tokenize (lowerStr (String.toList "apple apple"))).dedup.filter
        (fun w =>
          decide (w <:+: lowerStr (String.toList "We love apple pie today")))).length
          = 1 ∧
      (snippetLoop (tokenize (lowerStr (String.toList "apple apple"))) 3
        [String.toList "We love apple pie today"] []).map (fun q => q.2) =
        [2] := by
  decide

/-! ## Whole-word highlighting (C7): character-level facts -/

theorem toNat_ofNat_valid (n : Nat) (h : n < 55296) :
    (Char.ofNat n).toNat = n := by
  rw [Char.ofNat, dif_pos (Or.inl h)]
  simp [Char.ofNatAux, Char.toNat, UInt32.toNat]

theorem toNat_toLower (c : Char) :
    (Char.toLower c).toNat =
      if 65 ≤ c.toNat ∧ c.toNat ≤ 90 then c.toNat + 32 else c.toNat := by
  by_cases h : 65 ≤ c.toNat ∧ c.toNat ≤ 90
  · rw [if_pos h]
    have hc : Char.toLower c = Char.ofNat (c.toNat + 32) := by
      unfold Char.toLower
      rw [if_pos ⟨h.1, h.2⟩]
    rw [hc, toNat_ofNat_valid _ (by omega)]
  · rw [if_neg h]
    have hc : Char.toLower c = c := by
      unfold Char.toLower
      rw [if_neg]
      intro hcon
      exact h ⟨hcon.1, hcon.2⟩
    rw [hc]

theorem isAlnum_toLower (c : Char) :
    isAlnum (Char.toLower c) = isAlnum c := by
  rw [Bool.eq_iff_iff]
  simp only [isAlnum, toNat_toLower]
  by_cases h : 65 ≤ c.toNat ∧ c.toNat ≤ 90
  · rw [if_pos h]
    simp
    omega
  · rw [if_neg h]

theorem isAlnum_of_toLower_eq {c c1 : Char}
    (h : Char.toLower c = Char.toLower c1) (h1 : isAlnum c1 = true) :
    isAlnum c = true := by
  rw [← isAlnum_toLower c, h, isAlnum_toLower c1]
  exact h1

theorem isWordChar_of_isAlnum {c : Char} (h : isAlnum c = true) :
    isWordChar c = true := by
  rw [isWordChar, h]
  rfl

theorem isRegexSpecial_false_of_isAlnum {c : Char} (h : isAlnum c = true) :
    isRegexSpecial c = false := by
  simp [isAlnum] at h
  simp [isRegexSpecial]
  omega

theorem escapeRegex_eq_self {w : List Char}
    (h : ∀ c ∈ w, isAlnum c = true) : escapeRegex w = w := by
  induction w with
  | nil => rfl
  | cons c rest ih =>
    rw [escapeRegex, List.foldr_cons,
      if_neg (by rw [isRegexSpecial_false_of_isAlnum
        (h c (List.mem_cons_self _ _))]; simp)]
    have := ih (fun c1 hc1 => h c1 (List.mem_cons_of_mem _ hc1))
    rw [escapeRegex] at this
    rw [this]

theorem map_toLower_mem {l1 l2 : List Char}
    (h : l1.map Char.toLower = l2.map Char.toLower) :
    ∀ c ∈ l1, ∃ c1 ∈ l2, Char.toLower c = Char.toLower c1 := by
  induction l1 generalizing l2 with
  | nil => intro c hc; exact absurd hc (List.not_mem_nil c)
  | cons a r ih =>
    cases l2 with
    | nil => intro c hc; exact absurd h (by simp)
    | cons b r2 =>
      rw [List.map_cons, List.map_cons, List.cons.injEq] at h
      intro c hc
      rcases List.mem_cons.mp hc with hc1 | hc1
      · exact ⟨b, List.mem_cons_self _ _, hc1 ▸ h.1⟩
      · obtain ⟨c1, hm, he⟩ := ih h.2 c hc1
        exact ⟨c1, List.mem_cons_of_mem _ hm, he⟩

theorem wAt_append_left {l1 l2 : List Char} (h : l1 ≠ []) :
    wAt (l1 ++ l2) = wAt l1 := by
  cases l1 with
  | nil => exact absurd rfl h
  | cons c r => rfl

theorem wAt_reverse_true_of_all_alnum {l : List Char} (hne : l ≠ [])
    (h : ∀ c ∈ l, isAlnum c = true) : wAt l.reverse = true := by
  cases hrev : l.reverse with
  | nil =>
    exact absurd (by simpa using congrArg List.reverse hrev) hne
  | cons c r =>
    have hc : c ∈ l := by
      rw [← List.mem_reverse, hrev]
      exact List.mem_cons_self _ _
    rw [wAt]
    exact isWordChar_of_isAlnum (h c hc)

/-! ## Whole-word highlighting (C7): the scan and its stepping lemmas -/

theorem hlGoF_fuel_irrel (w : List Char) :
    ∀ f1 : Nat, ∀ {f2 : Nat} {prevW : Bool} {s : List Char},
      s.length < f1 → s.length < f2 →
      hlGoF w f1 prevW s = hlGoF w f2 prevW s := by
  intro f1
  induction f1 with
  | zero => intro f2 prevW s h1 h2; omega
  | succ f1 ih =>
    intro f2 prevW s h1 h2
    cases s with
    | nil =>
      cases f2 with
      | zero => omega
      | succ f2 => rfl
    | cons c rest =>
      cases f2 with
      | zero => omega
      | succ f2 =>
        rw [hlGoF, hlGoF]
        by_cases hc : w ≠ [] ∧ startsWithCI w (c :: rest) = true ∧
            prevW ≠ isWordChar c ∧
            wAt (((c :: rest).take w.length).reverse) ≠
              wAt ((c :: rest).drop w.length)
        · rw [if_pos hc, if_pos hc]
          have hwlen : 1 ≤ w.length := by
            cases hw : w with
            | nil => exact absurd hw hc.1
            | cons a l => simp
          have hlen : ((c :: rest).drop w.length).length < f1 := by
            rw [List.length_drop]
            simp only [List.length_cons]
            simp only [List.length_cons] at h1
            omega
          have hlen2 : ((c :: rest).drop w.length).length < f2 := by
            rw [List.length_drop]
            simp only [List.length_cons]
            simp only [List.length_cons] at h2
            omega
          rw [ih hlen hlen2]
        · rw [if_neg hc, if_neg hc]
          have hlen : rest.length < f1 := by
            simp only [List.length_cons] at h1
            omega
          have hlen2 : rest.length < f2 := by
            simp only [List.length_cons] at h2
            omega
          rw [ih hlen hlen2]

theorem hlGo_nil (w : List Char) (prevW : Bool) : hlGo w prevW [] = [] := rfl

theorem hlGo_cons (w : List Char) (prevW : Bool) (c : Char)
    (rest : List Char) :
    hlGo w prevW (c :: rest) =
      if w ≠ [] ∧ startsWithCI w (c :: rest) = true ∧
          prevW ≠ isWordChar c ∧
          wAt (((c :: rest).take w.length).reverse) ≠
            wAt ((c :: rest).drop w.length) then
        '*' :: '*' :: ((c :: rest).take w.length ++ '*' :: '*' ::
          hlGo w (wAt (((c :: rest).take w.length).reverse))
            ((c :: rest).drop w.length))
      else
        c :: hlGo w (isWordChar c) rest := by
  have hstep : hlGo w prevW (c :: rest) =
      hlGoF w (rest.length + 1 + 1) prevW (c :: rest) := rfl
  rw [hstep, hlGoF]
  by_cases hc : w ≠ [] ∧ startsWithCI w (c :: rest) = true ∧
      prevW ≠ isWordChar c ∧
      wAt (((c :: rest).take w.length).reverse) ≠
        wAt ((c :: rest).drop w.length)
  · rw [if_pos hc, if_pos hc]
    have hwlen : 1 ≤ w.length := by
      cases hw : w with
      | nil => exact absurd hw hc.1
      | cons a l => simp
    have hdl : ((c :: rest).drop w.length).length < rest.length + 1 := by
      rw [List.length_drop]
      simp only [List.length_cons]
      omega
    rw [hlGoF_fuel_irrel w (rest.length + 1) hdl (Nat.lt_succ_self _), hlGo]
  · rw [if_neg hc, if_neg hc, hlGo]

theorem specHighlightGo_stop {w s : List Char} {i : Nat}
    (h : s.length ≤ i) : specHighlightGo w s i = [] := by
  rw [specHighlightGo]
  split
  · rfl
  · rename_i c t heq
    rw [List.drop_eq_nil_of_le h] at heq
    exact List.noConfusion heq

theorem specHighlightGo_step {w s : List Char} {i : Nat} {c : Char}
    {t : List Char} (h : s.drop i = c :: t) :
    specHighlightGo w s i =
      if w ≠ [] ∧ specWholeWordAt w s i then
        '*' :: '*' :: ((s.drop i).take w.length ++ '*' :: '*' ::
          specHighlightGo w s (i + w.length))
      else c :: specHighlightGo w s (i + 1) := by
  rw [specHighlightGo]
  split
  · rename_i heq
    rw [heq] at h
    exact absurd h (by simp)
  · rename_i c1 t1 heq
    rw [h] at heq
    have hc1 : c1 = c := by
      injection heq.symm
    subst hc1
    by_cases hc : w ≠ [] ∧ specWholeWordAt w s i
    · rw [dif_pos hc, if_pos hc]
    · rw [dif_neg hc, if_neg hc]

theorem bool_eq_false_of_ne_true {b : Bool} (h : b ≠ true) : b = false := by
  cases b with
  | false => rfl
  | true => exact absurd rfl h

theorem take_match_facts {w s : List Char} {i : Nat}
    (halnum : ∀ c ∈ w, isAlnum c = true) (hw : w ≠ [])
    (hci : ((s.drop i).take w.length).map Char.toLower =
      w.map Char.toLower) :
    ((s.drop i).take w.length).length = w.length ∧
    (s.drop i).take w.length ≠ [] ∧
    (∀ c ∈ (s.drop i).take w.length, isAlnum c = true) := by
  have hlen : ((s.drop i).take w.length).length = w.length := by
    have := congrArg List.length hci
    simpa using this
  refine ⟨hlen, ?_, ?_⟩
  · intro hnil
    rw [hnil] at hlen
    exact hw (List.eq_nil_of_length_eq_zero hlen.symm)
  · intro c hc
    obtain ⟨c1, hm, he⟩ := map_toLower_mem hci c hc
    exact isAlnum_of_toLower_eq he (halnum c1 hm)

theorem hl_cond_iff {w s : List Char} {c : Char} {t : List Char} {i : Nat}
    (halnum : ∀ ch ∈ w, isAlnum ch = true) (hdrop : s.drop i = c :: t) :
    (w ≠ [] ∧ startsWithCI w (c :: t) = true ∧
      wAt ((s.take i).reverse) ≠ isWordChar c ∧
      wAt (((c :: t).take w.length).reverse) ≠ wAt ((c :: t).drop w.length))
    ↔ (w ≠ [] ∧ specWholeWordAt w s i) := by
  constructor
  · rintro ⟨hw, hsw, hpb, hab⟩
    have hci : ((s.drop i).take w.length).map Char.toLower =
        w.map Char.toLower := by
      rw [hdrop]
      exact eq_of_beq hsw
    obtain ⟨hlen, hne, hal⟩ := take_match_facts halnum hw hci
    rw [hdrop] at hlen hne hal
    have hcm : c ∈ (c :: t).take w.length := by
      cases hwl : w.length with
      | zero =>
        exact absurd (List.eq_nil_of_length_eq_zero hwl) hw
      | succ k =>
        rw [List.take_succ_cons]
        exact List.mem_cons_self _ _
    have hcw : isWordChar c = true := isWordChar_of_isAlnum (hal c hcm)
    refine ⟨hw, hci, ?_, ?_⟩
    · rw [hcw] at hpb
      exact bool_eq_false_of_ne_true hpb
    · have h1 : wAt (((c :: t).take w.length).reverse) = true :=
        wAt_reverse_true_of_all_alnum hne hal
      rw [h1] at hab
      have h2 := bool_eq_false_of_ne_true (fun he => hab he.symm)
      rw [← h2]
      rw [← hdrop, List.drop_drop, Nat.add_comm]
  · rintro ⟨hw, hci0, hpf, haf⟩
    have hci : ((s.drop i).take w.length).map Char.toLower =
        w.map Char.toLower := hci0
    obtain ⟨hlen, hne, hal⟩ := take_match_facts halnum hw hci
    rw [hdrop] at hlen hne hal
    have hcm : c ∈ (c :: t).take w.length := by
      cases hwl : w.length with
      | zero =>
        exact absurd (List.eq_nil_of_length_eq_zero hwl) hw
      | succ k =>
        rw [List.take_succ_cons]
        exact List.mem_cons_self _ _
    have hcw : isWordChar c = true := isWordChar_of_isAlnum (hal c hcm)
    refine ⟨hw, ?_, ?_, ?_⟩
    · rw [startsWithCI]
      rw [hdrop] at hci
      exact beq_of_eq hci
    · rw [hpf, hcw]
      simp
    · rw [wAt_reverse_true_of_all_alnum hne hal]
      rw [show (c :: t).drop w.length = s.drop (i + w.length) from by
        rw [← hdrop, List.drop_drop, Nat.add_comm]]
      rw [haf]
      simp

/-- The inductive core of the highlighting refinement: from any position `i`,
the source scan (carrying whether the character before `i` is a word
character) produces the same output as the specification walk. -/
theorem hlGo_eq_specHighlightGo {w : List Char} (hw : w ≠ [])
    (halnum : ∀ ch ∈ w, isAlnum ch = true) (s : List Char) :
    ∀ n i, n = s.length - i →
      hlGo w (wAt ((s.take i).reverse)) (s.drop i) = specHighlightGo w s i := by
  intro n
  induction n using Nat.strong_induction_on with
  | _ n ih =>
    intro i hn
    cases hdrop : s.drop i with
    | nil =>
      rw [hlGo_nil]
      have hle : s.length ≤ i := by
        by_contra hlt
        have : s.drop i ≠ [] := by
          intro hnil
          rw [List.drop_eq_nil_iff_le] at hnil
          omega
        exact this hdrop
      rw [specHighlightGo_stop hle]
    | cons c t =>
      have hi : i < s.length := by
        by_contra hge
        rw [List.drop_eq_nil_of_le (by omega)] at hdrop
        exact List.noConfusion hdrop
      rw [hlGo_cons, specHighlightGo_step hdrop]
      by_cases hc : w ≠ [] ∧ specWholeWordAt w s i
      · rw [if_pos ((hl_cond_iff halnum hdrop).mpr hc), if_pos hc]
        obtain ⟨hlen, hne, hal⟩ :=
          take_match_facts halnum hw hc.2.1
        have hwlen : 1 ≤ w.length := by
          cases hwl : w with
          | nil => exact absurd hwl hw
          | cons a l => simp
        have htake : (c :: t).take w.length = (s.drop i).take w.length := by
          rw [hdrop]
        have hdropw : (c :: t).drop w.length = s.drop (i + w.length) := by
          rw [← hdrop, List.drop_drop, Nat.add_comm]
        have hprev : wAt (((s.drop i).take w.length).reverse) =
            wAt ((s.take (i + w.length)).reverse) := by
          rw [show s.take (i + w.length) =
            s.take i ++ (s.drop i).take w.length from (List.take_add _ _ _)]
          rw [List.reverse_append]
          rw [wAt_append_left (by
            intro hnil
            exact hne (by simpa using congrArg List.reverse hnil))]
        rw [htake, hdropw, hprev]
        rw [ih (s.length - (i + w.length)) (by omega) (i + w.length) rfl]
      · rw [if_neg (fun h => hc ((hl_cond_iff halnum hdrop).mp h)),
          if_neg hc]
        have ht : t = s.drop (i + 1) := by
          have h1 : (s.drop i).drop 1 = s.drop (i + 1) := by
            rw [List.drop_drop]
          rw [hdrop] at h1
          rw [show (c :: t).drop 1 = t from rfl] at h1
          exact h1
        have htake1 : s.take (i + 1) = s.take i ++ [c] := by
          rw [show s.take (i + 1) = s.take i ++ (s.drop i).take 1 from
            (List.take_add _ _ _), hdrop]
          rfl
        have hprev : isWordChar c = wAt ((s.take (i + 1)).reverse) := by
          rw [htake1, List.reverse_append]
          rfl
        rw [ht, hprev]
        rw [ih (s.length - (i + 1)) (by omega) (i + 1) rfl]

theorem length_pos_of_ne_nil {w : List Char} (hw : w ≠ []) :
    1 ≤ w.length := by
  cases hwl : w with
  | nil => exact absurd hwl hw
  | cons a l => simp

theorem spec_occurrence_bound {w s : List Char} {i : Nat} (hw : w ≠ [])
    (hspec : specWholeWordAt w s i) : i + w.length ≤ s.length := by
  have hlen : ((s.drop i).take w.length).length = w.length := by
    simpa using congrArg List.length hspec.1
  rw [List.length_take, List.length_drop] at hlen
  have h2 : w.length ≤ s.length - i := min_eq_left_iff.mp hlen
  have h3 := length_pos_of_ne_nil hw
  omega

theorem matched_char_word {w s : List Char} {i m : Nat}
    (halnum : ∀ ch ∈ w, isAlnum ch = true) (hw : w ≠ [])
    (hspec : specWholeWordAt w s i) (hm1 : i ≤ m) (hm2 : m < i + w.length)
    (hb : m < s.length) : isWordChar (s.get ⟨m, hb⟩) = true := by
  obtain ⟨hlen, hne, hal⟩ := take_match_facts halnum hw hspec.1
  have hk : m - i < ((s.drop i).take w.length).length := by
    rw [hlen]
    omega
  have hkd : m - i < (s.drop i).length := by
    rw [List.length_drop]
    have := spec_occurrence_bound hw hspec
    omega
  have h1 : ((s.drop i).take w.length).get ⟨m - i, hk⟩ =
      (s.drop i).get ⟨m - i, hkd⟩ := by
    simp only [List.get_eq_getElem]
    exact List.getElem_take (s.drop i)
  have hb2 : i + (m - i) < s.length := by omega
  have h2 : (s.drop i).get ⟨m - i, hkd⟩ = s.get ⟨i + (m - i), hb2⟩ :=
    Eq.symm (List.get_drop s hb2)
  have h3 : s.get ⟨i + (m - i), hb2⟩ = s.get ⟨m, hb⟩ := by
    congr 1
    exact Fin.ext (by simp; omega)
  have hmem : s.get ⟨m, hb⟩ ∈ (s.drop i).take w.length := by
    rw [← h3, ← h2, ← h1]
    exact List.get_mem _ _ _
  exact isWordChar_of_isAlnum (hal _ hmem)

theorem specWholeWordAt_no_overlap {w s : List Char} (hw : w ≠ [])
    (halnum : ∀ ch ∈ w, isAlnum ch = true) :
    ∀ i j, specWholeWordAt w s i → specWholeWordAt w s j → i < j →
      i + w.length ≤ j := by
  intro i j hi hj hij
  by_contra hlt
  push_neg at hlt
  have hjb := spec_occurrence_bound hw hj
  have hw1 := length_pos_of_ne_nil hw
  have hb : j - 1 < s.length := by omega
  have hwc : isWordChar (s.get ⟨j - 1, hb⟩) = true :=
    matched_char_word halnum hw hi (by omega) (by omega) hb
  have htk : s.take j = s.take (j - 1) ++ [s.get ⟨j - 1, hb⟩] := by
    conv_lhs => rw [show j = (j - 1) + 1 from by omega]
    rw [List.take_succ]
    congr 1
    rw [List.getElem?_eq_getElem hb]
    simp [List.get_eq_getElem]
  have hfalse := hj.2.1
  rw [htk, List.reverse_append] at hfalse
  simp only [List.reverse_cons, List.reverse_nil, List.nil_append,
    List.singleton_append] at hfalse
  rw [wAt, hwc] at hfalse
  exact Bool.noConfusion hfalse

/-- C7: highlighting wraps exactly the whole-word matches.  For every
tokenized query word (nonempty, all alphanumeric): the escaping step is the
identity on it, so the pattern built matches the literal word; the source's
global case-insensitive `\b…\b` replacement of the word by `**$&**` equals
the specification-side walk that wraps every case-insensitive whole-word
occurrence of the word (preceded and followed by no word character) and
nothing else; and whole-word occurrences never overlap, so the single
left-to-right pass wraps every one of them — in particular "budget" inside
"budgeting" is not wrapped. -/
theorem highlight_whole_words_exactly (w : List Char) (hw : w ≠ [])
    (halnum : ∀ ch ∈ w, isAlnum ch = true) :
    escapeRegex w = w ∧
    (∀ s : List Char, hlGo w false s = specHighlight w s) ∧
    (∀ s : List Char, ∀ i j, specWholeWordAt w s i → specWholeWordAt w s j →
      i < j → i + w.length ≤ j) := by
  refine ⟨escapeRegex_eq_self halnum, ?_, ?_⟩
  · intro s
    have h := hlGo_eq_specHighlightGo hw halnum s (s.length - 0) 0 rfl
    simpa [specHighlight, wAt] using h
  · intro s i j hi hj hij
    exact specWholeWordAt_no_overlap hw halnum i j hi hj hij

/-- Witness for C7 at the word "budget" against a sentence containing both
"budgeting" and a standalone "budget": the scan agrees with the
specification walk, and only the standalone occurrence is wrapped. -/
theorem highlight_whole_words_exactly_witness :
    (String.toList "budget" ≠ [] ∧
      (∀ ch ∈ String.toList "budget", isAlnum ch = true)) ∧
    hlGo (String.toList "budget") false
        (String.toList "the budgeting budget plan") =
      specHighlight (String.toList "budget")
        (String.toList "the budgeting budget plan") ∧
    hlGo (String.toList "budget") false
        (String.toList "the budgeting budget plan") =
      String.toList "the budgeting **budget** plan" :=
  ⟨⟨by decide, by decide⟩,
   (highlight_whole_words_exactly _ (by decide) (by decide)).2.1 _,
   by decide⟩

end QuerySense
